import Mathlib

/-!
Verification of the Danish-law ingestion core (Retsinformation ingestion
script and citation tooling).  The TypeScript functions are shallowly
embedded as Lean functions over `String`/`List Char` and a JSON-like tree
type.  Host Unicode normalization (`String.prototype.normalize`) is an
external primitive of the JavaScript runtime; it is modelled as an abstract
function parameter constrained only by the properties the Unicode standard
guarantees for it (idempotence, stability of whitespace structure).
-/

namespace DanishLaw

/-! ### Character classes of the JavaScript regular-expression engine -/

/-- The set matched by `\s` in JavaScript regular expressions (also the set
trimmed by `String.prototype.trim`). -/
def jsWs (c : Char) : Bool :=
  decide (c.toNat ∈ [9, 10, 11, 12, 13, 32, 0xA0, 0x1680, 0x2028, 0x2029,
      0x202F, 0x205F, 0x3000, 0xFEFF] ∨ (0x2000 ≤ c.toNat ∧ c.toNat ≤ 0x200A))

/-- U+00A0 NO-BREAK SPACE. -/
def nbspChar : Char := Char.ofNat 0xA0

def isUpperA (c : Char) : Bool := decide (0x41 ≤ c.toNat ∧ c.toNat ≤ 0x5A)

def isLowerA (c : Char) : Bool := decide (0x61 ≤ c.toNat ∧ c.toNat ≤ 0x7A)

def isDigitA (c : Char) : Bool := decide (0x30 ≤ c.toNat ∧ c.toNat ≤ 0x39)

def isLetterA (c : Char) : Bool := isUpperA c || isLowerA c

def isAlnumA (c : Char) : Bool := isLetterA c || isDigitA c

/-- Model of `String.prototype.toLowerCase` on the characters this code can
feed it (ASCII plus the Danish capitals Æ, Ø, Å, all of which lower-case by
adding 32 to the code point). -/
def jsLowerChar (c : Char) : Char :=
  if isUpperA c || c.toNat == 0xC6 || c.toNat == 0xD8 || c.toNat == 0xC5 then
    Char.ofNat (c.toNat + 32)
  else c

def jsToLowerCase (s : String) : String := ⟨s.data.map jsLowerChar⟩

/-! ### normalizeWhitespace (src, `normalizeWhitespace`)

`text.replace(/ /g, ' ').replace(/\s+/g, ' ').trim().normalize('NFC')`.
The final NFC step is the host primitive, passed in as `nfc`. -/

def replaceNbsp (s : String) : String :=
  ⟨s.data.map (fun c => if c = nbspChar then ' ' else c)⟩

/-- Global replacement of each maximal run of `\s` characters by a single
ASCII space; the flag records whether the previous character was whitespace
(i.e. whether we are inside a run whose space has already been emitted). -/
def collapseAux : Bool → List Char → List Char
  | _, [] => []
  | prevWs, c :: rest =>
    if jsWs c then
      if prevWs then collapseAux true rest else ' ' :: collapseAux true rest
    else c :: collapseAux false rest

def collapseWs (s : String) : String := ⟨collapseAux false s.data⟩

def dropWhileEnd (p : Char → Bool) (l : List Char) : List Char :=
  (l.reverse.dropWhile p).reverse

def trimList (l : List Char) : List Char :=
  dropWhileEnd jsWs (l.dropWhile jsWs)

def jsTrim (s : String) : String := ⟨trimList s.data⟩

def normalizeWhitespace (nfc : String → String) (text : String) : String :=
  nfc (jsTrim (collapseWs (replaceNbsp text)))

/-! ### The shape normalizeWhitespace guarantees before NFC -/

/-- A character list is clean when every whitespace character in it is a
plain space, no two whitespace characters are adjacent, and it neither
starts nor ends with whitespace. -/
def CleanList (l : List Char) : Prop :=
  (∀ c ∈ l, jsWs c = true → c = ' ') ∧
  l.Chain' (fun a b => ¬(jsWs a = true ∧ jsWs b = true)) ∧
  (∀ c, l.head? = some c → jsWs c = false) ∧
  (∀ c, l.getLast? = some c → jsWs c = false)

def CleanStr (s : String) : Prop := CleanList s.data

theorem collapseAux_ws_space : ∀ (b : Bool) (l : List Char),
    ∀ c ∈ collapseAux b l, jsWs c = true → c = ' ' := by
  intro b l
  induction l generalizing b with
  | nil => intro c hc; cases hc
  | cons a rest ih =>
    intro c hc hws
    by_cases ha : jsWs a
    · cases b with
      | true => simpa [collapseAux, ha] using ih true c (by simpa [collapseAux, ha] using hc) hws
      | false =>
        rw [collapseAux, if_pos ha, if_neg (by simp)] at hc
        rcases List.mem_cons.mp hc with h | h
        · exact h
        · exact ih true c h hws
    · rw [collapseAux, if_neg ha] at hc
      rcases List.mem_cons.mp hc with h | h
      · subst h; simp [ha] at hws
      · exact ih false c h hws

theorem collapseAux_head_true : ∀ (l : List Char) (c : Char),
    (collapseAux true l).head? = some c → jsWs c = false := by
  intro l
  induction l with
  | nil => intro c hc; simp [collapseAux] at hc
  | cons a rest ih =>
    intro c hc
    by_cases ha : jsWs a
    · exact ih c (by simpa [collapseAux, ha] using hc)
    · rw [collapseAux, if_neg ha] at hc
      simp only [List.head?_cons, Option.some.injEq] at hc
      subst hc
      simpa using ha

theorem collapseAux_chain : ∀ (b : Bool) (l : List Char),
    (collapseAux b l).Chain' (fun a b => ¬(jsWs a = true ∧ jsWs b = true)) := by
  intro b l
  induction l generalizing b with
  | nil => simp [collapseAux]
  | cons a rest ih =>
    by_cases ha : jsWs a
    · cases b with
      | true => simpa [collapseAux, ha] using ih true
      | false =>
        rw [collapseAux, if_pos ha, if_neg (by simp)]
        rw [List.chain'_cons']
        refine ⟨?_, ih true⟩
        intro y hy
        intro hcontra
        have := collapseAux_head_true rest y hy
        simp [this] at hcontra
    · rw [collapseAux, if_neg ha]
      rw [List.chain'_cons']
      refine ⟨?_, ih false⟩
      intro y _ hcontra
      simp [ha] at hcontra

theorem head_dropWhile_not (p : Char → Bool) : ∀ (l : List Char) (c : Char),
    (l.dropWhile p).head? = some c → p c = false := by
  intro l
  induction l with
  | nil => intro c hc; simp [List.dropWhile] at hc
  | cons a rest ih =>
    intro c hc
    by_cases ha : p a
    · exact ih c (by simpa [List.dropWhile, ha] using hc)
    · rw [List.dropWhile_cons_of_neg (by simpa using ha)] at hc
      simp only [List.head?_cons, Option.some.injEq] at hc
      subst hc
      simpa using ha

theorem mem_dropWhileEnd (p : Char → Bool) (l : List Char) :
    ∀ c ∈ dropWhileEnd p l, c ∈ l := by
  intro c hc
  unfold dropWhileEnd at hc
  rw [List.mem_reverse] at hc
  have := List.dropWhile_sublist (l := l.reverse) (p := p)
  have hmem := this.mem hc
  rwa [List.mem_reverse] at hmem

theorem getLast_dropWhileEnd (p : Char → Bool) (l : List Char) (c : Char)
    (h : (dropWhileEnd p l).getLast? = some c) : p c = false := by
  unfold dropWhileEnd at h
  rw [List.getLast?_reverse] at h
  exact head_dropWhile_not p l.reverse c h

theorem dropWhileEnd_front (p : Char → Bool) (l : List Char) :
    (dropWhileEnd p l) <+: l := by
  unfold dropWhileEnd
  have h := List.dropWhile_suffix (l := l.reverse) (p := p)
  exact List.reverse_suffix.mp (by simpa using h)

theorem head_dropWhileEnd (p : Char → Bool) (l : List Char) (c : Char)
    (h : (dropWhileEnd p l).head? = some c) : l.head? = some c := by
  rcases dropWhileEnd_front p l with ⟨t, ht⟩
  cases hdw : dropWhileEnd p l with
  | nil => rw [hdw] at h; simp at h
  | cons x xs =>
    rw [hdw] at h ht
    simp only [List.head?_cons, Option.some.injEq] at h
    rw [← ht, h]
    simp

theorem cleanList_trim_collapse (l : List Char) :
    CleanList (trimList (collapseAux false l)) := by
  unfold trimList
  set m := collapseAux false l with hm
  refine ⟨?_, ?_, ?_, ?_⟩
  · intro c hc hws
    have h1 : c ∈ m.dropWhile jsWs := mem_dropWhileEnd jsWs _ c hc
    have h2 : c ∈ m := (List.dropWhile_sublist (l := m) (p := jsWs)).mem h1
    exact collapseAux_ws_space false l c h2 hws
  · have hchain : (m.dropWhile jsWs).Chain'
        (fun a b => ¬(jsWs a = true ∧ jsWs b = true)) :=
      (collapseAux_chain false l).suffix (List.dropWhile_suffix _)
    exact hchain.prefix (dropWhileEnd_front jsWs _)
  · intro c hc
    have := head_dropWhileEnd jsWs (m.dropWhile jsWs) c hc
    exact head_dropWhile_not jsWs m c this
  · intro c hc
    exact getLast_dropWhileEnd jsWs _ c hc

theorem nbsp_ws : jsWs nbspChar = true := by decide

theorem nbsp_ne_space : nbspChar ≠ ' ' := by decide

theorem replaceNbsp_clean (s : String) (h : CleanStr s) : replaceNbsp s = s := by
  obtain ⟨hws, _, _, _⟩ := h
  unfold replaceNbsp
  have hpt : ∀ c ∈ s.data, (if c = nbspChar then ' ' else c) = id c := by
    intro c hc
    have : c ≠ nbspChar := by
      intro hcn
      subst hcn
      exact nbsp_ne_space (hws _ hc nbsp_ws)
    simp [this]
  rw [List.map_congr_left hpt, List.map_id]

theorem collapseAux_true_eq_false (l : List Char)
    (h : ∀ c, l.head? = some c → jsWs c = false) :
    collapseAux true l = collapseAux false l := by
  cases l with
  | nil => rfl
  | cons a rest =>
    have := h a (by simp)
    simp [collapseAux, this]

theorem collapseAux_clean : ∀ (l : List Char),
    (∀ c ∈ l, jsWs c = true → c = ' ') →
    l.Chain' (fun a b => ¬(jsWs a = true ∧ jsWs b = true)) →
    collapseAux false l = l := by
  intro l
  induction l with
  | nil => intro _ _; rfl
  | cons a rest ih =>
    intro hws hchain
    by_cases ha : jsWs a
    · have ha' : a = ' ' := hws a (by simp) ha
      rw [collapseAux, if_pos ha, if_neg (by simp)]
      rw [List.chain'_cons'] at hchain
      have hhead : ∀ c, rest.head? = some c → jsWs c = false := by
        intro c hc
        have := hchain.1 c hc
        by_contra hcontra
        simp only [Bool.not_eq_false] at hcontra
        exact this ⟨ha, hcontra⟩
      rw [collapseAux_true_eq_false rest hhead]
      rw [ih (fun c hc => hws c (List.mem_cons_of_mem _ hc)) hchain.2]
      rw [ha']
    · rw [collapseAux, if_neg ha]
      rw [List.chain'_cons'] at hchain
      rw [ih (fun c hc => hws c (List.mem_cons_of_mem _ hc)) hchain.2]

theorem dropWhile_clean (p : Char → Bool) (l : List Char)
    (h : ∀ c, l.head? = some c → p c = false) : l.dropWhile p = l := by
  cases l with
  | nil => rfl
  | cons a rest =>
    have := h a (by simp)
    rw [List.dropWhile_cons_of_neg (by simp [this])]

theorem dropWhileEnd_clean (p : Char → Bool) (l : List Char)
    (h : ∀ c, l.getLast? = some c → p c = false) : dropWhileEnd p l = l := by
  unfold dropWhileEnd
  rw [dropWhile_clean]
  · exact l.reverse_reverse
  · intro c hc
    rw [List.head?_reverse] at hc
    exact h c hc

theorem trimList_clean (l : List Char) (hl : CleanList l) : trimList l = l := by
  obtain ⟨_, _, hhead, hlast⟩ := hl
  unfold trimList
  rw [dropWhile_clean jsWs l hhead]
  exact dropWhileEnd_clean jsWs l hlast

theorem normalizeWhitespace_clean_arg (nfc : String → String) (s : String)
    (h : CleanStr s) : normalizeWhitespace nfc s = nfc s := by
  unfold normalizeWhitespace
  rw [replaceNbsp_clean s h]
  have hc : collapseWs s = s := by
    unfold collapseWs
    rw [collapseAux_clean s.data h.1 h.2.1]
  rw [hc]
  have ht : jsTrim s = s := by
    unfold jsTrim
    rw [trimList_clean s.data h]
  rw [ht]

theorem cleanStr_normalizeWhitespace_core (t : String) :
    CleanStr (jsTrim (collapseWs (replaceNbsp t))) := by
  unfold jsTrim collapseWs CleanStr
  exact cleanList_trim_collapse (replaceNbsp t).data

/-- C3: `normalizeWhitespace` is idempotent.  The host NFC step is abstract;
the hypotheses record the two facts the Unicode standard guarantees about
NFC: it is idempotent, and it maps a string whose whitespace is already
collapsed and trimmed to another such string (canonical composition neither
creates, deletes, nor moves whitespace characters). -/
theorem normalizeWhitespace_idem (nfc : String → String)
    (hid : ∀ s, nfc (nfc s) = nfc s)
    (hclean : ∀ s, CleanStr s → CleanStr (nfc s)) (t : String) :
    normalizeWhitespace nfc (normalizeWhitespace nfc t) =
      normalizeWhitespace nfc t := by
  have hcore := cleanStr_normalizeWhitespace_core t
  set s := jsTrim (collapseWs (replaceNbsp t)) with hs
  have h1 : normalizeWhitespace nfc t = nfc s := rfl
  rw [h1, normalizeWhitespace_clean_arg nfc (nfc s) (hclean s hcore)]
  exact hid s

/-- Witness for C3 at a concrete input and `nfc := id`. -/
theorem normalizeWhitespace_idem_witness :
    normalizeWhitespace id (normalizeWhitespace id "  a  b  ") =
      normalizeWhitespace id "  a  b  " :=
  normalizeWhitespace_idem id (fun _ => rfl) (fun _ h => h) "  a  b  "

/-! ### toAsciiKey (src, `toAsciiKey`)

`input.normalize('NFKD').replace(/[̀-ͯ]/g, '')
      .replace(/[^A-Za-z0-9]+/g, '_').replace(/^_+|_+$/g, '').toLowerCase()`.
The host NFKD step is the abstract parameter `nfkd`. -/

def combiningMark (c : Char) : Bool :=
  decide (0x300 ≤ c.toNat ∧ c.toNat ≤ 0x36F)

/-- Global replacement of each maximal run of non-alphanumeric characters by
a single underscore. -/
def underscoreAux : Bool → List Char → List Char
  | _, [] => []
  | prevU, c :: rest =>
    if isAlnumA c then c :: underscoreAux false rest
    else if prevU then underscoreAux true rest
    else '_' :: underscoreAux true rest

def toAsciiKey (nfkd : String → String) (input : String) : String :=
  jsToLowerCase
    ⟨dropWhileEnd (fun c => c = '_')
      (List.dropWhile (fun c => c = '_')
        (underscoreAux false ((nfkd input).data.filter (fun c => !combiningMark c))))⟩

theorem underscoreAux_mem : ∀ (b : Bool) (l : List Char),
    ∀ c ∈ underscoreAux b l, isAlnumA c = true ∨ c = '_' := by
  intro b l
  induction l generalizing b with
  | nil => intro c hc; cases hc
  | cons a rest ih =>
    intro c hc
    by_cases ha : isAlnumA a
    · rw [underscoreAux, if_pos ha] at hc
      rcases List.mem_cons.mp hc with h | h
      · subst h; exact Or.inl ha
      · exact ih false c h
    · rw [underscoreAux, if_neg ha] at hc
      by_cases hb : b
      · subst hb
        rw [if_pos rfl] at hc
        exact ih true c hc
      · simp only [Bool.not_eq_true] at hb
        subst hb
        rw [if_neg (by simp)] at hc
        rcases List.mem_cons.mp hc with h | h
        · subst h; exact Or.inr rfl
        · exact ih true c h

theorem charToNat_ofNat (n : Nat) (h : n.isValidChar) : (Char.ofNat n).toNat = n := by
  unfold Char.ofNat
  rw [dif_pos h]
  rfl

theorem jsLowerChar_alnum (c : Char) (h : isAlnumA c = true) :
    (isLowerA (jsLowerChar c) = true ∨ isDigitA (jsLowerChar c) = true) ∧
      jsLowerChar c ≠ '_' := by
  unfold isAlnumA isLetterA at h
  unfold jsLowerChar
  by_cases hu : isUpperA c
  · rw [if_pos (by simp [hu])]
    unfold isUpperA at hu
    rw [decide_eq_true_iff] at hu
    have hv : (c.toNat + 32).isValidChar := Or.inl (by omega)
    constructor
    · left
      unfold isLowerA
      rw [decide_eq_true_iff, charToNat_ofNat _ hv]
      omega
    · intro hcontra
      have hn : (Char.ofNat (c.toNat + 32)).toNat = 0x5F := by rw [hcontra]; rfl
      rw [charToNat_ofNat _ hv] at hn
      omega
  · have h' : isLowerA c = true ∨ isDigitA c = true := by
      rcases Bool.or_eq_true_iff.mp h with h1 | h2
      · rcases Bool.or_eq_true_iff.mp h1 with h3 | h4
        · exact absurd h3 hu
        · exact Or.inl h4
      · exact Or.inr h2
    have hranges : 0x61 ≤ c.toNat ∧ c.toNat ≤ 0x7A ∨ 0x30 ≤ c.toNat ∧ c.toNat ≤ 0x39 := by
      rcases h' with h1 | h1
      · exact Or.inl (by simpa [isLowerA, decide_eq_true_iff] using h1)
      · exact Or.inr (by simpa [isDigitA, decide_eq_true_iff] using h1)
    have hnd : ¬(isUpperA c || c.toNat == 0xC6 || c.toNat == 0xD8 || c.toNat == 0xC5) = true := by
      simp only [Bool.or_eq_true, beq_iff_eq]
      push_neg
      refine ⟨⟨⟨by simpa using hu, by omega⟩, by omega⟩, by omega⟩
    rw [if_neg hnd]
    refine ⟨h', ?_⟩
    intro hcontra
    subst hcontra
    rw [show Char.toNat '_' = 95 from rfl] at hranges
    omega

/-- C10: `toAsciiKey` returns only lower-case ASCII letters, digits and
underscores, never starting or ending with an underscore, and maps the empty
string to the empty key.  `nfkd` is the abstract host NFKD normalization;
only `nfkd "" = ""` is needed. -/
theorem toAsciiKey_invariant (nfkd : String → String) (input : String)
    (h0 : nfkd "" = "") :
    (∀ c ∈ (toAsciiKey nfkd input).data,
        isLowerA c = true ∨ isDigitA c = true ∨ c = '_') ∧
    (∀ c, (toAsciiKey nfkd input).data.head? = some c → c ≠ '_') ∧
    (∀ c, (toAsciiKey nfkd input).data.getLast? = some c → c ≠ '_') ∧
    toAsciiKey nfkd "" = "" := by
  unfold toAsciiKey jsToLowerCase
  set base := underscoreAux false ((nfkd input).data.filter (fun c => !combiningMark c))
    with hbase
  set stripped := dropWhileEnd (fun c => c = '_') (List.dropWhile (fun c => c = '_') base)
    with hstripped
  refine ⟨?_, ?_, ?_, ?_⟩
  · intro c hc
    simp only [List.mem_map] at hc
    obtain ⟨d, hd, hdc⟩ := hc
    have hd' : d ∈ base := by
      have h1 := mem_dropWhileEnd (fun c => c = '_') _ d hd
      exact (List.dropWhile_sublist _).mem h1
    rcases underscoreAux_mem false _ d hd' with h | h
    · rcases (jsLowerChar_alnum d h).1 with hl | hl
      · subst hdc; exact Or.inl hl
      · subst hdc; exact Or.inr (Or.inl hl)
    · subst h
      subst hdc
      right; right; rfl
  · intro c hc
    rw [List.head?_map] at hc
    cases hh : stripped.head? with
    | none => rw [hh] at hc; cases hc
    | some d =>
      rw [hh] at hc
      simp only [Option.map_some', Option.some.injEq] at hc
      have hne : d ≠ '_' := by
        have h1 := head_dropWhileEnd (fun c => c = '_') _ d hh
        have h2 := head_dropWhile_not (fun c => decide (c = '_')) base d h1
        simpa using h2
      have hdmem : d ∈ base := by
        have h1 : d ∈ stripped := List.mem_of_mem_head? hh
        have h2 := mem_dropWhileEnd (fun c => c = '_') _ d h1
        exact (List.dropWhile_sublist _).mem h2
      rcases underscoreAux_mem false _ d hdmem with h | h
      · subst hc; exact (jsLowerChar_alnum d h).2
      · exact absurd h hne
  · intro c hc
    rw [List.getLast?_map] at hc
    cases hh : stripped.getLast? with
    | none => rw [hh] at hc; cases hc
    | some d =>
      rw [hh] at hc
      simp only [Option.map_some', Option.some.injEq] at hc
      have hne : d ≠ '_' := by
        have h2 := getLast_dropWhileEnd (fun c => decide (c = '_')) _ d hh
        simpa using h2
      have hdmem : d ∈ base := by
        have h1 : d ∈ stripped := List.mem_of_mem_getLast? hh
        have h2 := mem_dropWhileEnd (fun c => c = '_') _ d h1
        exact (List.dropWhile_sublist _).mem h2
      rcases underscoreAux_mem false _ d hdmem with h | h
      · subst hc; exact (jsLowerChar_alnum d h).2
      · exact absurd h hne
  · rw [h0]
    rfl

/-- Witness for C10 at `nfkd := id` and a concrete input. -/
theorem toAsciiKey_invariant_witness :
    ((toAsciiKey id "Ab c!").data.getLast? ≠ some '_') ∧ toAsciiKey id "" = "" :=
  ⟨fun h => (toAsciiKey_invariant id "Ab c!" rfl).2.2.1 '_' h rfl,
   (toAsciiKey_invariant id "Ab c!" rfl).2.2.2⟩

/-! ### The parsed XML document tree

`fast-xml-parser` hands the ingestion code a dynamically shaped value:
null/undefined, strings, numbers, booleans, arrays, and objects whose
entries are iterated in insertion order.  Absent object fields behave like
`null` in every consuming function (`value == null` tests, `typeof` tests),
so both map to `Json.null`. -/

inductive Json : Type where
  | null : Json
  | str : String → Json
  | num : Int → Json
  | bool : Bool → Json
  | arr : List Json → Json
  | obj : List (String × Json) → Json
deriving Inhabited

/-- Object property lookup (`objectNode.key`); `Json.null` models
`undefined` for a missing key. -/
def objGet (fs : List (String × Json)) (key : String) : Json :=
  match fs.find? (fun kv => kv.1 == key) with
  | some kv => kv.2
  | none => Json.null

def getField : Json → String → Json
  | .obj fs, key => objGet fs key
  | _, _ => .null

/-- Model of `asArray` from the source: null/undefined becomes `[]`, an
array is returned as is, any other value is wrapped in a singleton. -/
def asArray : Json → List Json
  | .null => []
  | .arr xs => xs
  | v => [v]

theorem one_le_sizeOf_list {α : Type} [SizeOf α] (l : List α) : 1 ≤ sizeOf l := by
  cases l <;> simp <;> omega

theorem sizeOf_snd_lt_pair (p : String × Json) : sizeOf p.2 < sizeOf p := by
  cases p
  simp

theorem objGet_sizeOf_le (fs : List (String × Json)) (key : String) :
    sizeOf (objGet fs key) ≤ sizeOf fs := by
  unfold objGet
  cases hf : fs.find? (fun kv => kv.1 == key) with
  | none => simpa using one_le_sizeOf_list fs
  | some kv =>
    have hmem : kv ∈ fs := List.mem_of_find?_eq_some hf
    have h1 : sizeOf kv < sizeOf fs := List.sizeOf_lt_of_mem hmem
    have h2 : sizeOf kv.2 < sizeOf kv := sizeOf_snd_lt_pair kv
    show sizeOf kv.2 ≤ sizeOf fs
    omega

theorem mem_asArray_sizeOf_le {x v : Json} (h : x ∈ asArray v) : sizeOf x ≤ sizeOf v := by
  cases v with
  | null => cases h
  | arr xs =>
    have h1 : x ∈ xs := h
    have := List.sizeOf_lt_of_mem h1
    simp
    omega
  | str s => rw [show asArray (.str s) = [Json.str s] from rfl] at h; simp at h; simp [h]
  | num n => rw [show asArray (.num n) = [Json.num n] from rfl] at h; simp at h; simp [h]
  | bool b => rw [show asArray (.bool b) = [Json.bool b] from rfl] at h; simp at h; simp [h]
  | obj fs => rw [show asArray (.obj fs) = [Json.obj fs] from rfl] at h; simp at h; simp [h]

/-! ### extractText (src, `extractText`) -/

/-- The attribute keys that are never treated as textual content. -/
def excludedKey (k : String) : Bool :=
  k == "id" || k == "localId" || k == "SchemaLocation" || k == "REFid" ||
    k == "formaChar" || k == "formaInd"

/-- `typeof objectNode.Char === 'string'` check plus the value. -/
def charField : List (String × Json) → Option String
  | [] => none
  | kv :: rest =>
    if kv.1 = "Char" then
      match kv.2 with
      | .str c => some c
      | _ => none
    else charField rest

def joinSp (l : List String) : String := String.intercalate " " l

def extractText : Json → String
  | .null => ""
  | .str s => s
  | .num n => toString n
  | .bool b => toString b
  | .arr xs => joinSp ((xs.attach.map (fun x => extractText x.1)).filter (fun s => s ≠ ""))
  | .obj fs =>
    match charField fs with
    | some c => c
    | none =>
      joinSp ((fs.attach.map (fun kv =>
        if excludedKey kv.1.1 then "" else extractText kv.1.2)).filter (fun s => s ≠ ""))
termination_by j => sizeOf j
decreasing_by
  · have h1 := List.sizeOf_lt_of_mem x.2
    simp
    omega
  · have h1 := List.sizeOf_lt_of_mem kv.2
    have h2 := sizeOf_snd_lt_pair kv.1
    simp
    omega

theorem extractText_null : extractText .null = "" := by rw [extractText]

theorem extractText_str (s : String) : extractText (.str s) = s := by rw [extractText]

theorem extractText_num (n : Int) : extractText (.num n) = toString n := by rw [extractText]

theorem extractText_bool (b : Bool) : extractText (.bool b) = toString b := by rw [extractText]

theorem extractText_arr (xs : List Json) :
    extractText (.arr xs) =
      joinSp ((xs.map extractText).filter (fun s => s ≠ "")) := by
  rw [extractText]
  rw [List.attach_map_val xs extractText]

theorem extractText_obj_char (fs : List (String × Json)) (c : String)
    (h : charField fs = some c) : extractText (.obj fs) = c := by
  rw [extractText, h]

theorem extractText_obj_entries (fs : List (String × Json))
    (h : charField fs = none) :
    extractText (.obj fs) =
      joinSp ((fs.map (fun kv =>
        if excludedKey kv.1 then "" else extractText kv.2)).filter (fun s => s ≠ "")) := by
  rw [extractText, h]
  rw [List.attach_map_val fs (fun kv => if excludedKey kv.1 then "" else extractText kv.2)]

/-! ### Regular-expression matchers

Each inline regular expression of the source is embedded as a named
matcher.  `String.prototype.match` without the `g` flag returns the
leftmost match, so each matcher scans start positions left to right. -/

/-- Leftmost-match scan: try the position matcher at every suffix. -/
def scanFirst {α : Type} (f : List Char → Option α) : List Char → Option α
  | [] => f []
  | c :: rest =>
    match f (c :: rest) with
    | some r => some r
    | none => scanFirst f rest

/-- Consume a literal, case-sensitively; return the remainder. -/
def matchLit : List Char → List Char → Option (List Char)
  | [], l => some l
  | _ :: _, [] => none
  | p :: ps, c :: cs => if c = p then matchLit ps cs else none

def lowerA (c : Char) : Char :=
  if isUpperA c then Char.ofNat (c.toNat + 32) else c

/-- Consume a literal under ASCII case folding (model of the `i` flag on an
ASCII-letter literal). -/
def matchLitCI : List Char → List Char → Option (List Char)
  | [], l => some l
  | _ :: _, [] => none
  | p :: ps, c :: cs => if lowerA c = lowerA p then matchLitCI ps cs else none

/-- Position matcher for `/kapitel\s+(\d+[a-zA-Z]?)/iu` (greedy, no
backtracking needed: the character classes are pairwise disjoint). -/
def kapitelAt (l : List Char) : Option String :=
  match matchLitCI "kapitel".data l with
  | none => none
  | some r1 =>
    let ws := r1.takeWhile jsWs
    let r2 := r1.dropWhile jsWs
    if ws.isEmpty then none
    else
      let ds := r2.takeWhile isDigitA
      let r3 := r2.dropWhile isDigitA
      if ds.isEmpty then none
      else
        match r3 with
        | c :: _ => if isLetterA c then some ⟨ds ++ [c]⟩ else some ⟨ds⟩
        | [] => some ⟨ds⟩

def kapitelPattern (s : String) : Option String := scanFirst kapitelAt s.data

/-- Position matcher for `/§\s*(\d+[a-zA-Z]?)/u`. -/
def secSymbolAt (l : List Char) : Option String :=
  match matchLit "§".data l with
  | none => none
  | some r1 =>
    let r2 := r1.dropWhile jsWs
    let ds := r2.takeWhile isDigitA
    let r3 := r2.dropWhile isDigitA
    if ds.isEmpty then none
    else
      match r3 with
      | c :: _ => if isLetterA c then some ⟨ds ++ [c]⟩ else some ⟨ds⟩
      | [] => some ⟨ds⟩

/-- Anchored matcher for `/^(\d+[a-zA-Z]?)\.?$/u`. -/
def plainSectionMatch (l : List Char) : Option String :=
  let ds := l.takeWhile isDigitA
  let r := l.dropWhile isDigitA
  if ds.isEmpty then none
  else
    match r with
    | [] => some ⟨ds⟩
    | [c] =>
      if isLetterA c then some ⟨ds ++ [c]⟩
      else if c = '.' then some ⟨ds⟩
      else none
    | c :: c2 :: rest =>
      if isLetterA c = true ∧ c2 = '.' ∧ rest = [] then some ⟨ds ++ [c]⟩ else none

/-! ### parseSectionFromExplicatus and parseChapter (src) -/

def parseSectionFromExplicatus (nfc : String → String) (explicatus : Json) : Option String :=
  let text := normalizeWhitespace nfc (extractText explicatus)
  if text = "" then none
  else
    match scanFirst secSymbolAt text.data with
    | some s => some s
    | none => plainSectionMatch text.data

def parseChapter (nfc : String → String) (explicatus : Json) (localId : Json) : Option String :=
  match localId with
  | .str s =>
    if jsTrim s ≠ "" then some (jsTrim s)
    else
      let text := normalizeWhitespace nfc (extractText explicatus)
      if text = "" then none else kapitelPattern text
  | _ =>
    let text := normalizeWhitespace nfc (extractText explicatus)
    if text = "" then none else kapitelPattern text

/-! ### collectProvisions (src) -/

structure ProvisionSeed where
  provision_ref : String
  chapter : Option String
  «section» : String
  title : Option String
  content : String
deriving Repr, DecidableEq

/-- `chapter ? chapter + ":" + section : section` with JavaScript truthiness
(the empty string is falsy). -/
def renderRef (chapter : Option String) (sec : String) : String :=
  match chapter with
  | some ch => if ch = "" then sec else ch ++ ":" ++ sec
  | none => sec

/-- Section resolution for one `Paragraf` node: a non-blank string `localId`
wins, otherwise the heading text is pattern-matched. -/
def sectionOf (nfc : String → String) (paragraf : Json) : Option String :=
  match getField paragraf "localId" with
  | .str s =>
    if jsTrim s ≠ "" then some (jsTrim s)
    else parseSectionFromExplicatus nfc (getField paragraf "Explicatus")
  | _ => parseSectionFromExplicatus nfc (getField paragraf "Explicatus")

def walkNode (nfc : String → String) : Json → Option String → List ProvisionSeed
  | .arr xs, c => (xs.attach.map (fun x => walkNode nfc x.1 c)).flatten
  | .obj fs, c =>
    ((asArray (objGet fs "Kapitel")).attach.map (fun k =>
      walkNode nfc k.1
        ((parseChapter nfc (getField k.1 "Explicatus") (getField k.1 "localId")).orElse
          (fun _ => c)))).flatten
    ++ ((asArray (objGet fs "Paragraf")).attach.map (fun p =>
      match sectionOf nfc p.1 with
      | none => walkNode nfc p.1 c
      | some sec =>
        let title := normalizeWhitespace nfc (extractText (getField p.1 "Rubrica"))
        let content := normalizeWhitespace nfc (extractText p.1)
        if content = "" then walkNode nfc p.1 c
        else
          { provision_ref := renderRef c sec, chapter := c, «section» := sec,
            title := if title = "" then none else some title,
            content := content } :: walkNode nfc p.1 c)).flatten
    ++ (fs.attach.map (fun kv =>
      if kv.1.1 = "Kapitel" ∨ kv.1.1 = "Paragraf" then []
      else walkNode nfc kv.1.2 c)).flatten
  | _, _ => []
termination_by j _ => sizeOf j
decreasing_by
  all_goals
    first
    | (have h1 := List.sizeOf_lt_of_mem x.2
       simp
       omega)
    | (have h1 := mem_asArray_sizeOf_le k.2
       have h2 := objGet_sizeOf_le fs "Kapitel"
       simp
       omega)
    | (have h1 := mem_asArray_sizeOf_le p.2
       have h2 := objGet_sizeOf_le fs "Paragraf"
       simp
       omega)
    | (have h1 := List.sizeOf_lt_of_mem kv.2
       have h2 := sizeOf_snd_lt_pair kv.1
       simp
       omega)

/-- The dedupe step (src, `dedupeProvisions`): the JavaScript `Map` keyed by
`provision_ref` keeps the first-insertion position and replaces the stored
seed only when the new one has strictly longer content. -/
def updateProv (p q : ProvisionSeed) : ProvisionSeed :=
  if q.provision_ref = p.provision_ref ∧ q.content.length < p.content.length then p else q

def insertProv (acc : List ProvisionSeed) (p : ProvisionSeed) : List ProvisionSeed :=
  if acc.any (fun q => q.provision_ref == p.provision_ref) then acc.map (updateProv p)
  else acc ++ [p]

def dedupeProvisions (provisions : List ProvisionSeed) : List ProvisionSeed :=
  provisions.foldl insertProv []

def collectProvisions (nfc : String → String) (root : Json) : List ProvisionSeed :=
  dedupeProvisions (walkNode nfc root none)

/-- The chapter context passed to a `Kapitel` child:
`parseChapter(kapitel.Explicatus, kapitel.localId) ?? chapter`. -/
def kapitelNext (nfc : String → String) (c : Option String) (k : Json) : Option String :=
  (parseChapter nfc (getField k "Explicatus") (getField k "localId")).orElse (fun _ => c)

/-- The provisions contributed by one `Paragraf` child. -/
def paragrafStep (nfc : String → String) (c : Option String) (p : Json) : List ProvisionSeed :=
  match sectionOf nfc p with
  | none => walkNode nfc p c
  | some sec =>
    let title := normalizeWhitespace nfc (extractText (getField p "Rubrica"))
    let content := normalizeWhitespace nfc (extractText p)
    if content = "" then walkNode nfc p c
    else
      { provision_ref := renderRef c sec, chapter := c, «section» := sec,
        title := if title = "" then none else some title,
        content := content } :: walkNode nfc p c

theorem attach_map_eq_map {α β : Type} (l : List α) (f : {x // x ∈ l} → β) (g : α → β)
    (h : ∀ x : {x // x ∈ l}, f x = g x.1) : l.attach.map f = l.map g := by
  have h1 : l.attach.map f = l.attach.map (fun x => g x.1) :=
    List.map_congr_left (fun x _ => h x)
  rw [h1, List.attach_map_val]

theorem walkNode_null (nfc : String → String) (c : Option String) :
    walkNode nfc .null c = [] := by rw [walkNode] <;> simp

theorem walkNode_str (nfc : String → String) (s : String) (c : Option String) :
    walkNode nfc (.str s) c = [] := by rw [walkNode] <;> simp

theorem walkNode_num (nfc : String → String) (n : Int) (c : Option String) :
    walkNode nfc (.num n) c = [] := by rw [walkNode] <;> simp

theorem walkNode_bool (nfc : String → String) (b : Bool) (c : Option String) :
    walkNode nfc (.bool b) c = [] := by rw [walkNode] <;> simp

theorem walkNode_arr (nfc : String → String) (xs : List Json) (c : Option String) :
    walkNode nfc (.arr xs) c = (xs.map (fun x => walkNode nfc x c)).flatten := by
  rw [walkNode]
  rw [List.attach_map_val xs (fun x => walkNode nfc x c)]

theorem walkNode_obj (nfc : String → String) (fs : List (String × Json)) (c : Option String) :
    walkNode nfc (.obj fs) c =
      ((asArray (objGet fs "Kapitel")).map (fun k => walkNode nfc k (kapitelNext nfc c k))).flatten
      ++ ((asArray (objGet fs "Paragraf")).map (paragrafStep nfc c)).flatten
      ++ (fs.map (fun kv =>
          if kv.1 = "Kapitel" ∨ kv.1 = "Paragraf" then [] else walkNode nfc kv.2 c)).flatten := by
  rw [walkNode]
  congr 1
  · congr 1
    · exact congrArg List.flatten (attach_map_eq_map _ _ _ (fun k => rfl))
    · exact congrArg List.flatten (attach_map_eq_map _ _ _ (fun p => rfl))
  · exact congrArg List.flatten (attach_map_eq_map _ _ _ (fun kv => rfl))

/-! ### extractDefinitions (src, `extractDefinitions`)

The definitional clause matcher is
`/Ved\s+([A-Za-zÆØÅæøå\- ]{2,60})\s+forstås\s+([^\.]+)\./u`; the greedy
quantifiers backtrack, so the position matcher searches candidate component
lengths from longest to shortest, exactly as the regex engine does. -/

def isTermChar (c : Char) : Bool :=
  isLetterA c || c.toNat == 0xC6 || c.toNat == 0xD8 || c.toNat == 0xC5 ||
    c.toNat == 0xE6 || c.toNat == 0xF8 || c.toNat == 0xE5 || c = '-' || c = ' '

def countWhile (p : Char → Bool) (l : List Char) : Nat := (l.takeWhile p).length

/-- Try `f` at `n, n-1, ..., 1`, returning the first success (the order in
which a greedy quantifier explores candidate lengths). -/
def tryFrom {α : Type} (f : Nat → Option α) : Nat → Option α
  | 0 => none
  | n + 1 =>
    match f (n + 1) with
    | some x => some x
    | none => tryFrom f n

/-- Position matcher for the definitional-clause pattern; returns the two
capture groups (term, definition body before the closing period). -/
def vedAt (l : List Char) : Option (String × String) :=
  match matchLit "Ved".data l with
  | none => none
  | some r0 =>
    tryFrom (fun k1 =>
      let r1 := r0.drop k1
      tryFrom (fun k2 =>
        if k2 < 2 then none
        else
          let g1 := r1.take k2
          let r2 := r1.drop k2
          tryFrom (fun k3 =>
            let r3 := r2.drop k3
            match matchLit "forstås".data r3 with
            | none => none
            | some r4 =>
              tryFrom (fun k4 =>
                let r5 := r4.drop k4
                let g2 := r5.takeWhile (fun c => c ≠ '.')
                let r6 := r5.dropWhile (fun c => c ≠ '.')
                if g2.isEmpty then none
                else
                  match r6 with
                  | '.' :: _ => some (⟨g1⟩, ⟨g2⟩)
                  | _ => none) (countWhile jsWs r4)) (countWhile jsWs r2))
        (min 60 (countWhile isTermChar r1))) (countWhile jsWs r0)

def vedPattern (s : String) : Option (String × String) := scanFirst vedAt s.data

structure DefinitionRec where
  term : String
  definition : String
  source_provision : Option String
deriving Repr, DecidableEq

def extractDefinitions (nfc : String → String) (provisions : List ProvisionSeed) :
    List DefinitionRec :=
  provisions.foldl (fun acc p =>
    match vedPattern p.content with
    | none => acc
    | some td =>
      acc ++ [{ term := normalizeWhitespace nfc (jsToLowerCase td.1),
                definition := normalizeWhitespace nfc td.2,
                source_provision := some p.provision_ref }]) []

/-! ### Correctness of dedupeProvisions (C2) -/

def sameRef (r : String) (p : ProvisionSeed) : Bool := p.provision_ref == r

def refFilter (r : String) (l : List ProvisionSeed) : List ProvisionSeed :=
  l.filter (sameRef r)

/-- One step of the running best of a group of same-ref seeds: a strictly
longer newcomer wins, exactly the `Map.set` policy of the source. -/
def bestStep (acc : Option ProvisionSeed) (p : ProvisionSeed) : Option ProvisionSeed :=
  match acc with
  | none => some p
  | some q => if q.content.length < p.content.length then some p else some q

def bestOf (l : List ProvisionSeed) : Option ProvisionSeed := l.foldl bestStep none

theorem bestOf_append_one (l : List ProvisionSeed) (p : ProvisionSeed) :
    bestOf (l ++ [p]) = bestStep (bestOf l) p := by
  unfold bestOf
  rw [List.foldl_append]
  rfl

theorem bestOf_foldl_some (l : List ProvisionSeed) (q : ProvisionSeed) :
    l.foldl bestStep (some q) ≠ none := by
  induction l generalizing q with
  | nil => simp
  | cons a rest ih =>
    simp only [List.foldl_cons, bestStep]
    by_cases h : q.content.length < a.content.length
    · simpa [h] using ih a
    · simpa [h] using ih q

theorem bestOf_eq_none_iff (l : List ProvisionSeed) : bestOf l = none ↔ l = [] := by
  constructor
  · intro h
    cases l with
    | nil => rfl
    | cons a rest =>
      exfalso
      unfold bestOf at h
      rw [List.foldl_cons] at h
      exact bestOf_foldl_some rest a h
  · intro h; subst h; rfl

theorem bestOf_mem (l : List ProvisionSeed) (e : ProvisionSeed) (h : bestOf l = some e) :
    e ∈ l := by
  induction l using List.reverseRecOn with
  | nil => simp [bestOf] at h
  | append_singleton l p ih =>
    rw [bestOf_append_one] at h
    cases hb : bestOf l with
    | none =>
      rw [hb] at h
      simp only [bestStep] at h
      injection h with h
      subst h
      simp
    | some q =>
      rw [hb] at h
      simp only [bestStep] at h
      by_cases hlt : q.content.length < p.content.length
      · rw [if_pos hlt] at h; injection h with h; subst h; simp
      · rw [if_neg hlt] at h; injection h with h; subst h
        exact List.mem_append_left _ (ih hb)

theorem bestOf_le (l : List ProvisionSeed) :
    ∀ (e : ProvisionSeed), bestOf l = some e →
      ∀ x ∈ l, x.content.length ≤ e.content.length := by
  induction l using List.reverseRecOn with
  | nil => intro e h; simp [bestOf] at h
  | append_singleton l p ih =>
    intro e h x hx
    rw [bestOf_append_one] at h
    rcases List.mem_append.mp hx with hxl | hxp
    · cases hb : bestOf l with
      | none =>
        rw [(bestOf_eq_none_iff l).mp hb] at hxl
        cases hxl
      | some q =>
        rw [hb] at h
        simp only [bestStep] at h
        have hxq := ih q hb x hxl
        by_cases hlt : q.content.length < p.content.length
        · rw [if_pos hlt] at h; injection h with h; subst h; omega
        · rw [if_neg hlt] at h; injection h with h; subst h; exact hxq
    · have hxp' : x = p := by simpa using hxp
      rw [hxp']
      cases hb : bestOf l with
      | none =>
        rw [hb] at h
        simp only [bestStep] at h
        injection h with h
        subst h
        exact Nat.le_refl _
      | some q =>
        rw [hb] at h
        simp only [bestStep] at h
        by_cases hlt : q.content.length < p.content.length
        · rw [if_pos hlt] at h; injection h with h; subst h
          exact Nat.le_refl _
        · rw [if_neg hlt] at h; injection h with h; subst h; omega

theorem bestOf_decomp (l : List ProvisionSeed) (e : ProvisionSeed) (h : bestOf l = some e) :
    ∃ pre post, l = pre ++ e :: post ∧
      (∀ x ∈ pre, x.content.length < e.content.length) ∧
      (∀ x ∈ post, x.content.length ≤ e.content.length) := by
  induction l using List.reverseRecOn with
  | nil => simp [bestOf] at h
  | append_singleton l p ih =>
    rw [bestOf_append_one] at h
    cases hb : bestOf l with
    | none =>
      rw [hb] at h
      simp only [bestStep] at h
      injection h with h
      subst h
      rw [(bestOf_eq_none_iff l).mp hb]
      exact ⟨[], [], rfl, by simp, by simp⟩
    | some q =>
      rw [hb] at h
      simp only [bestStep] at h
      by_cases hlt : q.content.length < p.content.length
      · rw [if_pos hlt] at h
        injection h with h
        subst h
        refine ⟨l, [], rfl, ?_, by simp⟩
        intro x hx
        have := bestOf_le l q hb x hx
        omega
      · rw [if_neg hlt] at h
        injection h with h
        subst h
        obtain ⟨pre, post, hdec, hpre, hpost⟩ := ih hb
        refine ⟨pre, post ++ [p], by rw [hdec]; simp, hpre, ?_⟩
        intro x hx
        rcases List.mem_append.mp hx with hx1 | hx2
        · exact hpost x hx1
        · have : x = p := by simpa using hx2
          subst this
          omega

theorem updateProv_ref (p q : ProvisionSeed) :
    (updateProv p q).provision_ref = q.provision_ref := by
  unfold updateProv
  by_cases h : q.provision_ref = p.provision_ref ∧ q.content.length < p.content.length
  · rw [if_pos h, h.1]
  · rw [if_neg h]

theorem refFilter_map_updateProv (r : String) (p : ProvisionSeed)
    (l : List ProvisionSeed) :
    refFilter r (l.map (updateProv p)) = (refFilter r l).map (updateProv p) := by
  unfold refFilter
  rw [List.filter_map]
  congr 1
  apply List.filter_congr
  intro q _
  show sameRef r (updateProv p q) = sameRef r q
  unfold sameRef
  rw [updateProv_ref]

theorem refFilter_append_one (r : String) (l : List ProvisionSeed) (p : ProvisionSeed) :
    refFilter r (l ++ [p]) = refFilter r l ++ (if sameRef r p then [p] else []) := by
  unfold refFilter
  rw [List.filter_append]
  congr 1
  by_cases h : sameRef r p
  · simp [h]
  · simp [h]

theorem dedupe_append_one (ps : List ProvisionSeed) (p : ProvisionSeed) :
    dedupeProvisions (ps ++ [p]) = insertProv (dedupeProvisions ps) p := by
  unfold dedupeProvisions
  rw [List.foldl_append]
  rfl

theorem mem_refFilter_ref (r : String) (l : List ProvisionSeed) (e : ProvisionSeed)
    (h : e ∈ refFilter r l) : e.provision_ref = r := by
  unfold refFilter at h
  have := List.of_mem_filter h
  simpa [sameRef] using this

theorem dedupe_refFilter (ps : List ProvisionSeed) (r : String) :
    refFilter r (dedupeProvisions ps) = (bestOf (refFilter r ps)).toList := by
  induction ps using List.reverseRecOn generalizing r with
  | nil => rfl
  | append_singleton ps p ih =>
    rw [dedupe_append_one]
    unfold insertProv
    by_cases hany : (dedupeProvisions ps).any (fun q => q.provision_ref == p.provision_ref)
    · rw [if_pos hany]
      have hfil : refFilter p.provision_ref (dedupeProvisions ps) ≠ [] := by
        obtain ⟨q, hq1, hq2⟩ := List.any_eq_true.mp hany
        intro hcontra
        have hqmem : q ∈ refFilter p.provision_ref (dedupeProvisions ps) :=
          List.mem_filter.mpr ⟨hq1, by simpa [sameRef] using hq2⟩
        rw [hcontra] at hqmem
        cases hqmem
      cases hq₀ : bestOf (refFilter p.provision_ref ps) with
      | none =>
        exfalso
        rw [ih p.provision_ref, hq₀] at hfil
        exact hfil rfl
      | some q₀ =>
        have hq₀ref : q₀.provision_ref = p.provision_ref :=
          mem_refFilter_ref _ _ _ (bestOf_mem _ _ hq₀)
        rw [refFilter_map_updateProv, ih r, refFilter_append_one]
        by_cases hr : p.provision_ref = r
        · subst hr
          have hsr : sameRef p.provision_ref p = true := by simp [sameRef]
          rw [if_pos hsr, bestOf_append_one, hq₀]
          simp only [Option.toList_some, List.map_cons, List.map_nil, bestStep]
          unfold updateProv
          by_cases hlt : q₀.content.length < p.content.length
          · rw [if_pos ⟨hq₀ref, hlt⟩, if_pos hlt]
            rfl
          · rw [if_neg (fun hcontra => hlt hcontra.2), if_neg hlt]
            rfl
        · have hsr : ¬ (sameRef r p = true) := by
            simp only [sameRef, beq_iff_eq]
            intro hcontra
            exact hr hcontra
          rw [if_neg hsr, List.append_nil]
          cases hb : bestOf (refFilter r ps) with
          | none => simp
          | some e =>
            have heref : e.provision_ref = r := mem_refFilter_ref _ _ _ (bestOf_mem _ _ hb)
            simp only [Option.toList_some, List.map_cons, List.map_nil]
            unfold updateProv
            rw [if_neg]
            intro hcontra
            exact hr (hcontra.1 ▸ heref)
    · rw [if_neg hany]
      have hnone : bestOf (refFilter p.provision_ref ps) = none := by
        cases hq₀ : bestOf (refFilter p.provision_ref ps) with
        | none => rfl
        | some q₀ =>
          exfalso
          have hq₀mem : q₀ ∈ refFilter p.provision_ref (dedupeProvisions ps) := by
            rw [ih p.provision_ref, hq₀]
            simp
          have hq₀ref : q₀.provision_ref = p.provision_ref :=
            mem_refFilter_ref _ _ _ hq₀mem
          exact hany (List.any_eq_true.mpr
            ⟨q₀, List.mem_of_mem_filter hq₀mem, by simp [hq₀ref]⟩)
      rw [refFilter_append_one, refFilter_append_one, ih r]
      by_cases hr : sameRef r p = true
      · have hrp : p.provision_ref = r := by simpa [sameRef] using hr
        subst hrp
        rw [if_pos hr, bestOf_append_one, hnone]
        simp [bestStep]
      · rw [if_neg hr, List.append_nil, List.append_nil]

/-- C2: `dedupeProvisions` collapses all provisions sharing a provision ref
to a single entry whose content is the longest among them; when contents of
maximal length tie, the entry occurring first in document order is the one
retained (everything before the retained entry is strictly shorter,
everything after is no longer). -/
theorem dedupeProvisions_correct (ps : List ProvisionSeed) (r : String)
    (hne : refFilter r ps ≠ []) :
    ∃ e pre post,
      refFilter r (dedupeProvisions ps) = [e] ∧
      refFilter r ps = pre ++ e :: post ∧
      (∀ q ∈ pre, q.content.length < e.content.length) ∧
      (∀ q ∈ post, q.content.length ≤ e.content.length) := by
  cases hb : bestOf (refFilter r ps) with
  | none => exact absurd ((bestOf_eq_none_iff _).mp hb) hne
  | some e =>
    obtain ⟨pre, post, hdec, hpre, hpost⟩ := bestOf_decomp _ e hb
    refine ⟨e, pre, post, ?_, hdec, hpre, hpost⟩
    rw [dedupe_refFilter, hb]
    rfl

def seedShort : ProvisionSeed :=
  { provision_ref := "1", chapter := none, «section» := "1", title := none,
    content := "kort tekst" }

def seedLong : ProvisionSeed :=
  { provision_ref := "1", chapter := none, «section» := "1", title := none,
    content := "meget laengere paragraftekst end den anden post" }

/-- Witness for C2 at a concrete duplicate pair. -/
theorem dedupeProvisions_correct_witness :
    refFilter "1" [seedShort, seedLong] ≠ [] ∧
    (∃ e pre post,
      refFilter "1" (dedupeProvisions [seedShort, seedLong]) = [e] ∧
      refFilter "1" [seedShort, seedLong] = pre ++ e :: post ∧
      (∀ q ∈ pre, q.content.length < e.content.length) ∧
      (∀ q ∈ post, q.content.length ≤ e.content.length)) :=
  ⟨by decide, dedupeProvisions_correct [seedShort, seedLong] "1" (by decide)⟩

/-! ### The data-model invariant of emitted provisions (C7) -/

theorem one_le_sizeOf_json (j : Json) : 1 ≤ sizeOf j := by
  cases j <;> simp

theorem mem_flatten_map {α β : Type} (l : List α) (f : α → List β) (b : β) :
    b ∈ (l.map f).flatten ↔ ∃ a ∈ l, b ∈ f a := by
  simp [List.mem_flatten]

theorem mem_insertProv (acc : List ProvisionSeed) (p x : ProvisionSeed)
    (h : x ∈ insertProv acc p) : x ∈ acc ∨ x = p := by
  unfold insertProv at h
  by_cases hany : acc.any (fun q => q.provision_ref == p.provision_ref)
  · rw [if_pos hany] at h
    obtain ⟨q, hq, hqx⟩ := List.mem_map.mp h
    unfold updateProv at hqx
    by_cases hcond : q.provision_ref = p.provision_ref ∧ q.content.length < p.content.length
    · rw [if_pos hcond] at hqx
      exact Or.inr hqx.symm
    · rw [if_neg hcond] at hqx
      exact Or.inl (hqx ▸ hq)
  · rw [if_neg hany] at h
    rcases List.mem_append.mp h with h1 | h2
    · exact Or.inl h1
    · exact Or.inr (by simpa using h2)

theorem mem_dedupe (ps : List ProvisionSeed) (x : ProvisionSeed)
    (h : x ∈ dedupeProvisions ps) : x ∈ ps := by
  induction ps using List.reverseRecOn with
  | nil => cases h
  | append_singleton ps p ih =>
    rw [dedupe_append_one] at h
    rcases mem_insertProv _ _ _ h with h1 | h2
    · exact List.mem_append_left _ (ih h1)
    · subst h2; simp

theorem scanFirst_some {α : Type} (f : List Char → Option α) (l : List Char) (r : α)
    (h : scanFirst f l = some r) : ∃ m, f m = some r := by
  induction l with
  | nil => exact ⟨[], h⟩
  | cons c rest ih =>
    rw [scanFirst] at h
    split at h
    · rename_i r0 heq
      exact ⟨c :: rest, heq.trans h⟩
    · exact ih h

theorem kapitelAt_ne_empty (l : List Char) (s : String) (h : kapitelAt l = some s) :
    s ≠ "" := by
  unfold kapitelAt at h
  split at h
  · cases h
  · rename_i r1 hm
    dsimp only at h
    split at h
    · cases h
    · rename_i hws
      split at h
      · cases h
      · rename_i hds
        have hne : (r1.dropWhile jsWs).takeWhile isDigitA ≠ [] := by
          intro hcontra
          rw [hcontra] at hds
          exact hds rfl
        split at h
        · rename_i c rest hr3
          split at h
          · injection h with h
            subst h
            intro hcontra
            have hd := congrArg String.data hcontra
            simp at hd
          · injection h with h
            subst h
            intro hcontra
            exact hne (congrArg String.data hcontra)
        · injection h with h
          subst h
          intro hcontra
          exact hne (congrArg String.data hcontra)

theorem parseChapter_ne_blank (nfc : String → String) (explicatus localId : Json)
    (ch : String) (h : parseChapter nfc explicatus localId = some ch) : ch ≠ "" := by
  unfold parseChapter at h
  have hkap : ∀ (t : String), (if t = "" then none else kapitelPattern t) = some ch → ch ≠ "" := by
    intro t ht
    by_cases h0 : t = ""
    · rw [if_pos h0] at ht; cases ht
    · rw [if_neg h0] at ht
      obtain ⟨m, hm⟩ := scanFirst_some kapitelAt t.data ch ht
      exact kapitelAt_ne_empty m ch hm
  split at h
  · rename_i s
    split at h
    · rename_i htr
      injection h with h
      subst h
      exact htr
    · exact hkap _ h
  · exact hkap _ h

theorem walkNode_good (nfc : String → String) : ∀ (n : Nat) (j : Json) (c : Option String),
    sizeOf j ≤ n →
    (c = none ∨ ∃ ch, c = some ch ∧ ch ≠ "") →
    ∀ p ∈ walkNode nfc j c,
      ((p.chapter = none ∧ p.provision_ref = p.«section») ∨
        (∃ ch, p.chapter = some ch ∧ ch ≠ "" ∧
          p.provision_ref = ch ++ ":" ++ p.«section»)) ∧
      p.content ≠ "" := by
  intro n
  induction n with
  | zero =>
    intro j c hsz
    exact absurd hsz (by have := one_le_sizeOf_json j; omega)
  | succ n ih =>
    intro j c hsz hc p hp
    cases j with
    | null => rw [walkNode_null] at hp; cases hp
    | str s => rw [walkNode_str] at hp; cases hp
    | num m => rw [walkNode_num] at hp; cases hp
    | bool b => rw [walkNode_bool] at hp; cases hp
    | arr xs =>
      rw [walkNode_arr] at hp
      obtain ⟨x, hx, hpx⟩ := (mem_flatten_map _ _ _).mp hp
      have hxsz : sizeOf x ≤ n := by
        have h1 := List.sizeOf_lt_of_mem hx
        have h2 : sizeOf (Json.arr xs) = 1 + sizeOf xs := by simp
        omega
      exact ih x c hxsz hc p hpx
    | obj fs =>
      rw [walkNode_obj] at hp
      have hofs : sizeOf (Json.obj fs) = 1 + sizeOf fs := by simp
      rcases List.mem_append.mp hp with hp12 | hp3
      rcases List.mem_append.mp hp12 with hp1 | hp2
      · obtain ⟨k, hk, hpk⟩ := (mem_flatten_map _ _ _).mp hp1
        have hksz : sizeOf k ≤ n := by
          have h1 := mem_asArray_sizeOf_le hk
          have h2 := objGet_sizeOf_le fs "Kapitel"
          omega
        refine ih k (kapitelNext nfc c k) hksz ?_ p hpk
        unfold kapitelNext
        cases hpc : parseChapter nfc (getField k "Explicatus") (getField k "localId") with
        | none => simpa [Option.orElse] using hc
        | some ch =>
          right
          exact ⟨ch, by simp [Option.orElse], parseChapter_ne_blank _ _ _ _ hpc⟩
      · obtain ⟨q, hq, hpq⟩ := (mem_flatten_map _ _ _).mp hp2
        have hqsz : sizeOf q ≤ n := by
          have h1 := mem_asArray_sizeOf_le hq
          have h2 := objGet_sizeOf_le fs "Paragraf"
          omega
        unfold paragrafStep at hpq
        cases hsec : sectionOf nfc q with
        | none =>
          rw [hsec] at hpq
          exact ih q c hqsz hc p hpq
        | some sec =>
          rw [hsec] at hpq
          simp only at hpq
          by_cases hcont : normalizeWhitespace nfc (extractText q) = ""
          · rw [if_pos hcont] at hpq
            exact ih q c hqsz hc p hpq
          · rw [if_neg hcont] at hpq
            rcases List.mem_cons.mp hpq with hseed | hrest
            · subst hseed
              refine ⟨?_, hcont⟩
              rcases hc with hnone | ⟨ch, hch, hchne⟩
              · subst hnone
                left
                exact ⟨rfl, rfl⟩
              · subst hch
                right
                refine ⟨ch, rfl, hchne, ?_⟩
                show renderRef (some ch) sec = ch ++ ":" ++ sec
                simp [renderRef, hchne]
            · exact ih q c hqsz hc p hrest
      · obtain ⟨kv, hkv, hpkv⟩ := (mem_flatten_map _ _ _).mp hp3
        by_cases hkey : kv.1 = "Kapitel" ∨ kv.1 = "Paragraf"
        · rw [if_pos hkey] at hpkv; cases hpkv
        · rw [if_neg hkey] at hpkv
          have hkvsz : sizeOf kv.2 ≤ n := by
            have h1 := List.sizeOf_lt_of_mem hkv
            have h2 := sizeOf_snd_lt_pair kv
            omega
          exact ih kv.2 c hkvsz hc p hpkv

/-- C7: every provision emitted by the extractor satisfies the data-model
invariants: its `provision_ref` is `chapter ++ ":" ++ section` for a
non-blank chapter in scope and is `section` when no chapter is in scope,
and its content is non-empty. -/
theorem collectProvisions_invariant (nfc : String → String) (root : Json)
    (p : ProvisionSeed) (hp : p ∈ collectProvisions nfc root) :
    ((p.chapter = none ∧ p.provision_ref = p.«section») ∨
      (∃ ch, p.chapter = some ch ∧ ch ≠ "" ∧
        p.provision_ref = ch ++ ":" ++ p.«section»)) ∧
    p.content ≠ "" := by
  have h1 : p ∈ walkNode nfc root none := mem_dedupe _ _ hp
  exact walkNode_good nfc (sizeOf root) root none (Nat.le_refl _) (Or.inl rfl) p h1

/-! ### A concrete document tree, evaluated through the unfold lemmas -/

def tinyParagraf : Json :=
  .obj [("localId", .str "1"), ("Char", .str "Lovtekst her.")]

def tinyTree : Json := .obj [("Paragraf", tinyParagraf)]

def tinySeed : ProvisionSeed :=
  { provision_ref := "1", chapter := none, «section» := "1", title := none,
    content := "Lovtekst her." }

theorem walk_tinyParagraf : walkNode id tinyParagraf none = [] := by
  rw [show tinyParagraf =
    Json.obj [("localId", Json.str "1"), ("Char", Json.str "Lovtekst her.")] from rfl]
  rw [walkNode_obj]
  rw [show asArray (objGet [("localId", Json.str "1"),
    ("Char", Json.str "Lovtekst her.")] "Kapitel") = [] from rfl]
  rw [show asArray (objGet [("localId", Json.str "1"),
    ("Char", Json.str "Lovtekst her.")] "Paragraf") = [] from rfl]
  simp [walkNode_str]

theorem walk_tinyTree : walkNode id tinyTree none = [tinySeed] := by
  have hsec : sectionOf id tinyParagraf = some "1" := rfl
  have hct : extractText tinyParagraf = "Lovtekst her." :=
    extractText_obj_char _ _ rfl
  have hrb : extractText (getField tinyParagraf "Rubrica") = "" := by
    rw [show getField tinyParagraf "Rubrica" = Json.null from rfl]
    exact extractText_null
  have hps : paragrafStep id none tinyParagraf = tinySeed :: walkNode id tinyParagraf none := by
    unfold paragrafStep
    rw [hsec]
    dsimp only
    rw [hct, hrb]
    rfl
  rw [show tinyTree = Json.obj [("Paragraf", tinyParagraf)] from rfl]
  rw [walkNode_obj]
  rw [show asArray (objGet [("Paragraf", tinyParagraf)] "Kapitel") = [] from rfl]
  rw [show asArray (objGet [("Paragraf", tinyParagraf)] "Paragraf") = [tinyParagraf] from rfl]
  simp only [List.map_nil, List.flatten_nil, List.nil_append, List.map_cons,
    List.flatten_cons, hps, walk_tinyParagraf]
  simp

theorem collect_tinyTree : collectProvisions id tinyTree = [tinySeed] := by
  unfold collectProvisions
  rw [walk_tinyTree]
  rfl

/-- Witness for C7 at the concrete tree. -/
theorem collectProvisions_invariant_witness :
    tinySeed ∈ collectProvisions id tinyTree ∧ tinySeed.content ≠ "" := by
  have hmem : tinySeed ∈ collectProvisions id tinyTree := by
    rw [collect_tinyTree]
    simp
  exact ⟨hmem, (collectProvisions_invariant id tinyTree tinySeed hmem).2⟩

/-! ### Chapter resolution for Kapitel nodes (C4) -/

/-- The chapter resolution as the specification words it: the node's own
locally-scoped id when that is a non-blank string, else the number matched
by the "kapitel N" pattern in the node's (normalized) heading text, else the
chapter context inherited unchanged from the parent. -/
def chapterSpec (nfc : String → String) (k : Json) (c : Option String) : Option String :=
  match getField k "localId" with
  | .str s =>
    if jsTrim s ≠ "" then some (jsTrim s)
    else
      match kapitelPattern (normalizeWhitespace nfc (extractText (getField k "Explicatus"))) with
      | some n => some n
      | none => c
  | _ =>
    match kapitelPattern (normalizeWhitespace nfc (extractText (getField k "Explicatus"))) with
    | some n => some n
    | none => c

theorem kapitelPattern_empty : kapitelPattern "" = none := rfl

theorem chapterFallback (c : Option String) (t : String) :
    ((if t = "" then none else kapitelPattern t).orElse (fun _ => c)) =
      (match kapitelPattern t with
       | some n => some n
       | none => c) := by
  by_cases h0 : t = ""
  · rw [if_pos h0, h0, kapitelPattern_empty]
    rfl
  · rw [if_neg h0]
    cases kapitelPattern t <;> rfl

theorem kapitelNext_eq_chapterSpec (nfc : String → String) (c : Option String) (k : Json) :
    kapitelNext nfc c k = chapterSpec nfc k c := by
  unfold kapitelNext chapterSpec parseChapter
  cases hgf : getField k "localId" with
  | str s =>
    dsimp only
    by_cases htr : jsTrim s ≠ ""
    · rw [if_pos htr, if_pos htr]
      rfl
    · rw [if_neg htr, if_neg htr]
      exact chapterFallback c _
  | null => exact chapterFallback c _
  | num n => exact chapterFallback c _
  | bool b => exact chapterFallback c _
  | arr xs => exact chapterFallback c _
  | obj fs => exact chapterFallback c _

/-- C4: for every `Kapitel` child of a walked object node, the chapter
context used for its subtree is its own non-blank locally-scoped id, else
the number matched by "kapitel N" in its heading text, else the context
inherited unchanged from the parent (`chapterSpec`); the rest of the node's
walk is unaffected. -/
theorem kapitel_chapter_resolution (nfc : String → String)
    (fs : List (String × Json)) (c : Option String) :
    walkNode nfc (.obj fs) c =
      ((asArray (objGet fs "Kapitel")).map
        (fun k => walkNode nfc k (chapterSpec nfc k c))).flatten
      ++ ((asArray (objGet fs "Paragraf")).map (paragrafStep nfc c)).flatten
      ++ (fs.map (fun kv =>
          if kv.1 = "Kapitel" ∨ kv.1 = "Paragraf" then [] else walkNode nfc kv.2 c)).flatten := by
  rw [walkNode_obj]
  congr 2
  congr 1
  apply List.map_congr_left
  intro k _
  rw [kapitelNext_eq_chapterSpec]

/-! ### Paragraf nodes with no section or no content (C6) -/

/-- C6: a `Paragraf` node with no resolvable section number, or whose
extracted content is empty, contributes no provision of its own but its
children are still walked; the walk of the enclosing object is the plain
concatenation of per-child contributions, so the rest of the document is
unaffected (and the walker is a total function, so no exception arises). -/
theorem paragraf_no_section_skipped (nfc : String → String)
    (fs : List (String × Json)) (c : Option String) (p : Json)
    (hp : p ∈ asArray (objGet fs "Paragraf"))
    (h : sectionOf nfc p = none ∨ normalizeWhitespace nfc (extractText p) = "") :
    paragrafStep nfc c p = walkNode nfc p c ∧
    walkNode nfc (.obj fs) c =
      ((asArray (objGet fs "Kapitel")).map
        (fun k => walkNode nfc k (kapitelNext nfc c k))).flatten
      ++ ((asArray (objGet fs "Paragraf")).map (paragrafStep nfc c)).flatten
      ++ (fs.map (fun kv =>
          if kv.1 = "Kapitel" ∨ kv.1 = "Paragraf" then [] else walkNode nfc kv.2 c)).flatten := by
  refine ⟨?_, walkNode_obj nfc fs c⟩
  unfold paragrafStep
  cases hsec : sectionOf nfc p with
  | none => rfl
  | some sec =>
    dsimp only
    rcases h with h1 | h2
    · rw [h1] at hsec; cases hsec
    · rw [if_pos h2]

/-- A heading-only Paragraf node: no localId and no section token. -/
def headerParagraf : Json := .obj [("Explicatus", .str "Afsnit")]

theorem sectionOf_headerParagraf : sectionOf id headerParagraf = none := by
  unfold sectionOf
  rw [show getField headerParagraf "localId" = Json.null from rfl]
  dsimp only
  unfold parseSectionFromExplicatus
  rw [show getField headerParagraf "Explicatus" = Json.str "Afsnit" from rfl, extractText_str]
  rfl

/-- Witness for C6 at a concrete heading-only node. -/
theorem paragraf_no_section_skipped_witness :
    headerParagraf ∈ asArray (objGet [("Paragraf", headerParagraf)] "Paragraf") ∧
    paragrafStep id none headerParagraf = walkNode id headerParagraf none := by
  have hp : headerParagraf ∈ asArray (objGet [("Paragraf", headerParagraf)] "Paragraf") := by
    rw [show asArray (objGet [("Paragraf", headerParagraf)] "Paragraf") = [headerParagraf] from rfl]
    simp
  exact ⟨hp, (paragraf_no_section_skipped id [("Paragraf", headerParagraf)] none headerParagraf
    hp (Or.inl sectionOf_headerParagraf)).1⟩

/-! ### The Definition Extractor (C5, C9) -/

/-- The at-most-one definition each provision can contribute (the source
regular expression is matched without the `g` flag, so only the first
definitional clause is taken). -/
def defOf (nfc : String → String) (p : ProvisionSeed) : Option DefinitionRec :=
  match vedPattern p.content with
  | none => none
  | some td =>
    some { term := normalizeWhitespace nfc (jsToLowerCase td.1),
           definition := normalizeWhitespace nfc td.2,
           source_provision := some p.provision_ref }

theorem extractDefinitions_foldl (nfc : String → String) :
    ∀ (ps : List ProvisionSeed) (acc : List DefinitionRec),
      ps.foldl (fun acc p =>
        match vedPattern p.content with
        | none => acc
        | some td =>
          acc ++ [{ term := normalizeWhitespace nfc (jsToLowerCase td.1),
                    definition := normalizeWhitespace nfc td.2,
                    source_provision := some p.provision_ref }]) acc =
      acc ++ ps.filterMap (defOf nfc) := by
  intro ps
  induction ps with
  | nil => intro acc; simp
  | cons p rest ih =>
    intro acc
    rw [List.foldl_cons, List.filterMap_cons]
    cases hv : vedPattern p.content with
    | none =>
      rw [show defOf nfc p = none from by unfold defOf; rw [hv]]
      exact ih acc
    | some td =>
      rw [show defOf nfc p =
        some { term := normalizeWhitespace nfc (jsToLowerCase td.1),
               definition := normalizeWhitespace nfc td.2,
               source_provision := some p.provision_ref } from by unfold defOf; rw [hv]]
      rw [ih]
      simp

/-- A provision whose content holds two definitional clauses. -/
def vedTwoSeed : ProvisionSeed :=
  { provision_ref := "7", chapter := none, «section» := "7", title := none,
    content := "Ved ab forstås b. Ved cd forstås d." }

/-- C9: the Definition Extractor emits at most one record per provision:
its output is exactly one optional record per input seed (`filterMap`), so
its length never exceeds the number of provisions; on a provision holding
two definitional clauses, only the first match is taken. -/
theorem extractDefinitions_one_per_provision (nfc : String → String)
    (ps : List ProvisionSeed) :
    extractDefinitions nfc ps = ps.filterMap (defOf nfc) ∧
    (extractDefinitions nfc ps).length ≤ ps.length ∧
    extractDefinitions id [vedTwoSeed] =
      [{ term := "ab", definition := "b", source_provision := some "7" }] := by
  have hchar : extractDefinitions nfc ps = ps.filterMap (defOf nfc) := by
    unfold extractDefinitions
    rw [extractDefinitions_foldl nfc ps []]
    simp
  refine ⟨hchar, ?_, by decide⟩
  rw [hchar]
  exact List.length_filterMap_le _ _

/-- The provision text of the specification's worked example. -/
def gdprSeed : ProvisionSeed :=
  { provision_ref := "5", chapter := none, «section» := "5", title := none,
    content := "Ved personoplysninger forstås enhver information." }

theorem vedPattern_gdpr :
    vedPattern gdprSeed.content = some ("personoplysninger", "enhver information") := by
  decide

/-- C5 counterexample: on the specification's example text the extractor
does NOT yield the definition "enhver information." — the capture group of
the source regular expression is `[^\.]+`, which excludes the sentence-final
period. -/
theorem extractDefinitions_gdpr_counterexample :
    (extractDefinitions id [gdprSeed]).map (fun d => d.definition) =
      ["enhver information"] ∧
    ((extractDefinitions id [gdprSeed]).map (fun d => d.definition) ≠
      ["enhver information."]) := by
  constructor
  · decide
  · decide

/-- C5 (amended): on the example text the extractor yields exactly
`{term := "personoplysninger", definition := "enhver information"}` sourced
from the provision's ref — the definition text without the final period.
The abstract NFC step is constrained only to fix pure-ASCII strings, which
the Unicode standard guarantees. -/
theorem extractDefinitions_gdpr (nfc : String → String)
    (hA : ∀ s : String, (∀ c ∈ s.data, c.toNat < 128) → nfc s = s) :
    extractDefinitions nfc [gdprSeed] =
      [{ term := "personoplysninger", definition := "enhver information",
         source_provision := some "5" }] := by
  unfold extractDefinitions
  rw [List.foldl_cons, vedPattern_gdpr]
  dsimp only
  rw [List.foldl_nil]
  have ht : normalizeWhitespace nfc (jsToLowerCase "personoplysninger") = "personoplysninger" := by
    rw [show jsToLowerCase "personoplysninger" = "personoplysninger" from rfl]
    rw [show normalizeWhitespace nfc "personoplysninger" = nfc "personoplysninger" from rfl]
    exact hA _ (by decide)
  have hd : normalizeWhitespace nfc "enhver information" = "enhver information" := by
    rw [show normalizeWhitespace nfc "enhver information" = nfc "enhver information" from rfl]
    exact hA _ (by decide)
  rw [ht, hd]
  rfl

/-- Witness for the amended C5 at `nfc := id`. -/
theorem extractDefinitions_gdpr_witness :
    extractDefinitions id [gdprSeed] =
      [{ term := "personoplysninger", definition := "enhver information",
         source_provision := some "5" }] :=
  extractDefinitions_gdpr id (fun _ _ => rfl)

/-! ### Termination of the walk and of text extraction (C8)

The recursion of `extractText` and `collectProvisions` is replayed by
fuel-indexed interpreters that return `none` on fuel exhaustion; proving
that fuel `sizeOf j` always suffices shows the recursion terminates on
every finite tree and produces the (total) functions' values — no
exception, no divergence. -/

def optMapList {α β : Type} (f : α → Option β) : List α → Option (List β)
  | [] => some []
  | a :: rest =>
    match f a with
    | none => none
    | some b =>
      match optMapList f rest with
      | none => none
      | some bs => some (b :: bs)

theorem optMapList_eq_map {α β : Type} (f : α → Option β) (g : α → β) :
    ∀ (l : List α), (∀ x ∈ l, f x = some (g x)) → optMapList f l = some (l.map g) := by
  intro l
  induction l with
  | nil => intro _; rfl
  | cons a rest ih =>
    intro h
    rw [optMapList, h a (by simp), ih (fun x hx => h x (by simp [hx]))]
    rfl

def extractTextF : Nat → Json → Option String
  | 0, _ => none
  | fuel + 1, j =>
    match j with
    | .null => some ""
    | .str s => some s
    | .num n => some (toString n)
    | .bool b => some (toString b)
    | .arr xs =>
      match optMapList (extractTextF fuel) xs with
      | none => none
      | some ts => some (joinSp (ts.filter (fun s => s ≠ "")))
    | .obj fs =>
      match charField fs with
      | some c => some c
      | none =>
        match optMapList (fun kv =>
            if excludedKey kv.1 then some "" else extractTextF fuel kv.2) fs with
        | none => none
        | some ts => some (joinSp (ts.filter (fun s => s ≠ "")))

def walkNodeF (nfc : String → String) : Nat → Json → Option String → Option (List ProvisionSeed)
  | 0, _, _ => none
  | fuel + 1, j, c =>
    match j with
    | .arr xs =>
      match optMapList (fun x => walkNodeF nfc fuel x c) xs with
      | none => none
      | some ls => some ls.flatten
    | .obj fs =>
      match optMapList (fun k => walkNodeF nfc fuel k (kapitelNext nfc c k))
          (asArray (objGet fs "Kapitel")) with
      | none => none
      | some kls =>
        match optMapList (fun p =>
            match walkNodeF nfc fuel p c with
            | none => none
            | some sub =>
              match sectionOf nfc p with
              | none => some sub
              | some sec =>
                let title := normalizeWhitespace nfc (extractText (getField p "Rubrica"))
                let content := normalizeWhitespace nfc (extractText p)
                if content = "" then some sub
                else
                  some ({ provision_ref := renderRef c sec, chapter := c, «section» := sec,
                          title := if title = "" then none else some title,
                          content := content } :: sub))
            (asArray (objGet fs "Paragraf")) with
        | none => none
        | some pls =>
          match optMapList (fun kv =>
              if kv.1 = "Kapitel" ∨ kv.1 = "Paragraf" then some []
              else walkNodeF nfc fuel kv.2 c) fs with
          | none => none
          | some rls => some (kls.flatten ++ pls.flatten ++ rls.flatten)
    | _ => some []

theorem extractTextF_spec : ∀ (fuel : Nat) (j : Json), sizeOf j ≤ fuel →
    extractTextF fuel j = some (extractText j) := by
  intro fuel
  induction fuel with
  | zero =>
    intro j hsz
    exact absurd hsz (by have := one_le_sizeOf_json j; omega)
  | succ n ih =>
    intro j hsz
    cases j with
    | null => rw [extractText_null]; rfl
    | str s => rw [extractText_str]; rfl
    | num m => rw [extractText_num]; rfl
    | bool b => rw [extractText_bool]; rfl
    | arr xs =>
      have hm : optMapList (extractTextF n) xs = some (xs.map extractText) := by
        apply optMapList_eq_map
        intro x hx
        apply ih
        have h1 := List.sizeOf_lt_of_mem hx
        have h2 : sizeOf (Json.arr xs) = 1 + sizeOf xs := by simp
        omega
      rw [show extractTextF (n + 1) (.arr xs) =
        (match optMapList (extractTextF n) xs with
         | none => none
         | some ts => some (joinSp (ts.filter (fun s => s ≠ "")))) from rfl]
      rw [hm, extractText_arr]
    | obj fs =>
      have hofs : sizeOf (Json.obj fs) = 1 + sizeOf fs := by simp
      cases hcf : charField fs with
      | some c =>
        rw [extractText_obj_char fs c hcf]
        rw [show extractTextF (n + 1) (.obj fs) =
          (match charField fs with
           | some c => some c
           | none =>
             match optMapList (fun kv =>
                 if excludedKey kv.1 then some "" else extractTextF n kv.2) fs with
             | none => none
             | some ts => some (joinSp (ts.filter (fun s => s ≠ "")))) from rfl]
        rw [hcf]
      | none =>
        have hm : optMapList (fun kv =>
            if excludedKey kv.1 then some "" else extractTextF n kv.2) fs =
            some (fs.map (fun kv => if excludedKey kv.1 then "" else extractText kv.2)) := by
          apply optMapList_eq_map
          intro kv hkv
          by_cases he : excludedKey kv.1
          · rw [if_pos he, if_pos he]
          · rw [if_neg he, if_neg he]
            apply ih
            have h1 := List.sizeOf_lt_of_mem hkv
            have h2 := sizeOf_snd_lt_pair kv
            omega
        rw [extractText_obj_entries fs hcf]
        rw [show extractTextF (n + 1) (.obj fs) =
          (match charField fs with
           | some c => some c
           | none =>
             match optMapList (fun kv =>
                 if excludedKey kv.1 then some "" else extractTextF n kv.2) fs with
             | none => none
             | some ts => some (joinSp (ts.filter (fun s => s ≠ "")))) from rfl]
        rw [hcf, hm]

theorem walkNodeF_spec (nfc : String → String) : ∀ (fuel : Nat) (j : Json) (c : Option String),
    sizeOf j ≤ fuel → walkNodeF nfc fuel j c = some (walkNode nfc j c) := by
  intro fuel
  induction fuel with
  | zero =>
    intro j c hsz
    exact absurd hsz (by have := one_le_sizeOf_json j; omega)
  | succ n ih =>
    intro j c hsz
    cases j with
    | null => rw [walkNode_null]; rfl
    | str s => rw [walkNode_str]; rfl
    | num m => rw [walkNode_num]; rfl
    | bool b => rw [walkNode_bool]; rfl
    | arr xs =>
      have hm : optMapList (fun x => walkNodeF nfc n x c) xs =
          some (xs.map (fun x => walkNode nfc x c)) := by
        apply optMapList_eq_map
        intro x hx
        apply ih
        have h1 := List.sizeOf_lt_of_mem hx
        have h2 : sizeOf (Json.arr xs) = 1 + sizeOf xs := by simp
        omega
      rw [show walkNodeF nfc (n + 1) (.arr xs) c =
        (match optMapList (fun x => walkNodeF nfc n x c) xs with
         | none => none
         | some ls => some ls.flatten) from rfl]
      rw [hm, walkNode_arr]
    | obj fs =>
      have hofs : sizeOf (Json.obj fs) = 1 + sizeOf fs := by simp
      have hm1 : optMapList (fun k => walkNodeF nfc n k (kapitelNext nfc c k))
          (asArray (objGet fs "Kapitel")) =
          some ((asArray (objGet fs "Kapitel")).map
            (fun k => walkNode nfc k (kapitelNext nfc c k))) := by
        apply optMapList_eq_map
        intro k hk
        apply ih
        have h1 := mem_asArray_sizeOf_le hk
        have h2 := objGet_sizeOf_le fs "Kapitel"
        omega
      have hm2 : optMapList (fun p =>
          match walkNodeF nfc n p c with
          | none => none
          | some sub =>
            match sectionOf nfc p with
            | none => some sub
            | some sec =>
              let title := normalizeWhitespace nfc (extractText (getField p "Rubrica"))
              let content := normalizeWhitespace nfc (extractText p)
              if content = "" then some sub
              else
                some ({ provision_ref := renderRef c sec, chapter := c, «section» := sec,
                        title := if title = "" then none else some title,
                        content := content } :: sub))
          (asArray (objGet fs "Paragraf")) =
          some ((asArray (objGet fs "Paragraf")).map (paragrafStep nfc c)) := by
        apply optMapList_eq_map
        intro p hp
        have hpn : sizeOf p ≤ n := by
          have h1 := mem_asArray_sizeOf_le hp
          have h2 := objGet_sizeOf_le fs "Paragraf"
          omega
        rw [ih p c hpn]
        dsimp only
        unfold paragrafStep
        cases hsec : sectionOf nfc p with
        | none => rfl
        | some sec =>
          dsimp only
          by_cases hcont : normalizeWhitespace nfc (extractText p) = ""
          · rw [if_pos hcont, if_pos hcont]
          · rw [if_neg hcont, if_neg hcont]
      have hm3 : optMapList (fun kv =>
          if kv.1 = "Kapitel" ∨ kv.1 = "Paragraf" then some []
          else walkNodeF nfc n kv.2 c) fs =
          some (fs.map (fun kv =>
            if kv.1 = "Kapitel" ∨ kv.1 = "Paragraf" then [] else walkNode nfc kv.2 c)) := by
        apply optMapList_eq_map
        intro kv hkv
        by_cases hkey : kv.1 = "Kapitel" ∨ kv.1 = "Paragraf"
        · rw [if_pos hkey, if_pos hkey]
        · rw [if_neg hkey, if_neg hkey]
          apply ih
          have h1 := List.sizeOf_lt_of_mem hkv
          have h2 := sizeOf_snd_lt_pair kv
          omega
      rw [show walkNodeF nfc (n + 1) (.obj fs) c =
        (match optMapList (fun k => walkNodeF nfc n k (kapitelNext nfc c k))
            (asArray (objGet fs "Kapitel")) with
         | none => none
         | some kls =>
           match optMapList (fun p =>
               match walkNodeF nfc n p c with
               | none => none
               | some sub =>
                 match sectionOf nfc p with
                 | none => some sub
                 | some sec =>
                   let title := normalizeWhitespace nfc (extractText (getField p "Rubrica"))
                   let content := normalizeWhitespace nfc (extractText p)
                   if content = "" then some sub
                   else
                     some ({ provision_ref := renderRef c sec, chapter := c, «section» := sec,
                             title := if title = "" then none else some title,
                             content := content } :: sub))
               (asArray (objGet fs "Paragraf")) with
           | none => none
           | some pls =>
             match optMapList (fun kv =>
                 if kv.1 = "Kapitel" ∨ kv.1 = "Paragraf" then some []
                 else walkNodeF nfc n kv.2 c) fs with
             | none => none
             | some rls => some (kls.flatten ++ pls.flatten ++ rls.flatten)) from rfl]
      rw [hm1, hm2, hm3, walkNode_obj]

/-- C8: the provision walk and text extraction are total on every finite
tree: fuel `sizeOf j` always suffices for the fuel-indexed replicas of the
recursions, which then return exactly the total functions' results — a
provision list, respectively a string, with no exception. -/
theorem extraction_total (nfc : String → String) (j : Json) (c : Option String)
    (fuel : Nat) (h : sizeOf j ≤ fuel) :
    extractTextF fuel j = some (extractText j) ∧
    walkNodeF nfc fuel j c = some (walkNode nfc j c) ∧
    collectProvisions nfc j = dedupeProvisions (walkNode nfc j none) :=
  ⟨extractTextF_spec fuel j h, walkNodeF_spec nfc fuel j c h, rfl⟩

/-- Witness for C8 at the concrete tree. -/
theorem extraction_total_witness :
    extractTextF (sizeOf tinyTree) tinyTree = some (extractText tinyTree) ∧
    walkNodeF id (sizeOf tinyTree) tinyTree none = some (walkNode id tinyTree none) ∧
    collectProvisions id tinyTree = dedupeProvisions (walkNode id tinyTree none) :=
  extraction_total id tinyTree none (sizeOf tinyTree) (Nat.le_refl _)

/-! ### Citation parser and formatter (C1)

The citation parser/formatter sources (`src/citation/parser.ts`,
`src/citation/formatter.ts`) are not part of the provided source files; only
their callers are.  Both are therefore modelled from the specification. -/

/-- Modelled from the spec: a fully parsed reference — document identifier,
optional chapter, section, optional subsection pinpoint, optional EU-article
pinpoint (§3 of the spec; the parser sources are absent from src). -/
structure StructuredCitation where
  document_id : String
  chapter : Option String
  «section» : String
  pinpoint : Option String
  eu_article : Option String
deriving Repr, DecidableEq

/-- Split on single spaces, keeping empty chunks (dropped later). -/
def splitSpaces : List Char → List (List Char)
  | [] => [[]]
  | c :: rest =>
    if c = ' ' then [] :: splitSpaces rest
    else
      match splitSpaces rest with
      | [] => [[c]]
      | h :: t => (c :: h) :: t

/-- Strip trailing commas from a token (`"5," -> "5"`). -/
def stripCommas (t : List Char) : List Char :=
  dropWhileEnd (fun c => c = ',') t

def tokenizeL (l : List Char) : List (List Char) :=
  ((splitSpaces l).map stripCommas).filter (fun t => t ≠ [])

def isDigitsTok (t : List Char) : Bool := !t.isEmpty && t.all isDigitA

/-- SECTION_TOKEN of the spec grammar: digits with an optional attached
letter suffix. -/
def isSecTok (t : List Char) : Bool :=
  let ds := t.takeWhile isDigitA
  let r := t.dropWhile isDigitA
  !ds.isEmpty && (r.isEmpty || (r.length == 1 && r.all isLetterA))

/-- chapter_part of the spec grammar: `digits ":" SECTION_TOKEN`. -/
def chapterSplit (t : List Char) : Option (String × String) :=
  let ds := t.takeWhile isDigitA
  let r := t.dropWhile isDigitA
  if ds.isEmpty then none
  else
    match r with
    | ':' :: rest => if isSecTok rest then some (⟨ds⟩, ⟨rest⟩) else none
    | _ => none

def splitAtTok (m : List Char) : List (List Char) → Option (List (List Char) × List (List Char))
  | [] => none
  | t :: rest =>
    if t = m then some ([], rest)
    else
      match splitAtTok m rest with
      | none => none
      | some pp => some (t :: pp.1, pp.2)

/-- Modelled from the spec: consume a section token; a bare digits token
absorbs a following single-letter token (alphanumeric suffixes such as
"5 a" are preserved as part of the section string, not split). -/
def parseSecFrom : List (List Char) → Except String (String × List (List Char))
  | [] => Except.error "no section token"
  | t :: rest =>
    if isDigitsTok t then
      match rest with
      | u :: rest2 =>
        if u.length == 1 && u.all isLetterA then Except.ok (⟨t ++ ' ' :: u⟩, rest2)
        else Except.ok (⟨t⟩, rest)
      | [] => Except.ok (⟨t⟩, [])
    else if isSecTok t then Except.ok (⟨t⟩, rest)
    else Except.error "invalid section token"

/-- Modelled from the spec: the optional trailing pinpoint — `stk. N`
(subsection) or `art. N` (EU article); anything else trailing is refused
(the parser fails closed). -/
def parsePinpointTokens : List (List Char) → Except String (Option String × Option String)
  | [] => Except.ok (none, none)
  | t :: rest =>
    if t = "stk.".data then
      match rest with
      | [p] =>
        if isDigitsTok p then Except.ok (some ⟨p⟩, none)
        else Except.error "invalid subsection pinpoint"
      | _ => Except.error "invalid subsection pinpoint"
    else if t = "art.".data then
      match rest with
      | [a] =>
        if isDigitsTok a then Except.ok (none, some ⟨a⟩)
        else Except.error "invalid article pinpoint"
      | _ => Except.error "invalid article pinpoint"
    else Except.error "unexpected trailing tokens"

/-- Modelled from the spec (§4.2, §6): parse a citation string into a
`StructuredCitation` or fail with a descriptive error.  The first token is
the document identifier (short names pass through untouched); a symbolic
`§` marker wins over bare numeric tokens; the compact `chapter:section`
form supplies the chapter; a chapter token without a section, or no
document identifier, is a parse error. -/
def parseCitation (s : String) : Except String StructuredCitation :=
  match tokenizeL s.data with
  | [] => Except.error "no document identifier"
  | d :: rest =>
    if d = "§".data ∨ d = "stk.".data ∨ d = "art.".data then
      Except.error "no document identifier"
    else
      match splitAtTok "§".data rest with
      | some pr =>
        match parseSecFrom pr.2 with
        | Except.error e => Except.error e
        | Except.ok sr =>
          match parsePinpointTokens sr.2 with
          | Except.error e => Except.error e
          | Except.ok pa => Except.ok ⟨⟨d⟩, none, sr.1, pa.1, pa.2⟩
      | none =>
        match rest with
        | [] => Except.error "no section"
        | t :: rest1 =>
          match chapterSplit t with
          | some cs =>
            match parsePinpointTokens rest1 with
            | Except.error e => Except.error e
            | Except.ok pa => Except.ok ⟨⟨d⟩, some cs.1, cs.2, pa.1, pa.2⟩
          | none =>
            match parseSecFrom (t :: rest1) with
            | Except.error e => Except.error e
            | Except.ok sr =>
              match parsePinpointTokens sr.2 with
              | Except.error e => Except.error e
              | Except.ok pa => Except.ok ⟨⟨d⟩, none, sr.1, pa.1, pa.2⟩

/-! Tokenizer lemmas for the round-trip analysis. -/

theorem splitSpaces_ne_nil : ∀ (l : List Char), splitSpaces l ≠ [] := by
  intro l
  cases l with
  | nil => simp [splitSpaces]
  | cons c rest =>
    rw [splitSpaces]
    by_cases hc : c = ' '
    · rw [if_pos hc]; simp
    · rw [if_neg hc]
      cases splitSpaces rest <;> simp

theorem splitSpaces_append : ∀ (x y : List Char),
    splitSpaces (x ++ ' ' :: y) = splitSpaces x ++ splitSpaces y := by
  intro x y
  induction x with
  | nil => simp [splitSpaces]
  | cons c x ih =>
    rw [List.cons_append, splitSpaces, splitSpaces]
    by_cases hc : c = ' '
    · rw [if_pos hc, if_pos hc, ih]
      rfl
    · rw [if_neg hc, if_neg hc, ih]
      cases hsp : splitSpaces x with
      | nil => exact absurd hsp (splitSpaces_ne_nil x)
      | cons h t => rfl

theorem splitSpaces_no_space : ∀ (l : List Char), ∀ t ∈ splitSpaces l, ' ' ∉ t := by
  intro l
  induction l with
  | nil =>
    intro t ht
    rw [show splitSpaces [] = [[]] from rfl] at ht
    simp at ht
    subst ht
    simp
  | cons c rest ih =>
    intro t ht
    rw [splitSpaces] at ht
    by_cases hc : c = ' '
    · rw [if_pos hc] at ht
      rcases List.mem_cons.mp ht with h1 | h1
      · subst h1; simp
      · exact ih t h1
    · rw [if_neg hc] at ht
      cases hsp : splitSpaces rest with
      | nil => exact absurd hsp (splitSpaces_ne_nil rest)
      | cons h tl =>
        rw [hsp] at ht
        rcases List.mem_cons.mp ht with h1 | h1
        · subst h1
          intro hsp2
          rcases List.mem_cons.mp hsp2 with h2 | h2
          · exact hc h2.symm
          · exact ih h (by rw [hsp]; simp) h2
        · exact ih t (by rw [hsp]; exact List.mem_cons_of_mem _ h1)

theorem splitSpaces_single (t : List Char) (h : ' ' ∉ t) : splitSpaces t = [t] := by
  induction t with
  | nil => rfl
  | cons c rest ih =>
    have hc : c ≠ ' ' := fun hcontra => h (by simp [hcontra])
    rw [splitSpaces, if_neg hc, ih (fun hcontra => h (by simp [hcontra]))]

theorem stripCommas_idem (t : List Char) : stripCommas (stripCommas t) = stripCommas t := by
  unfold stripCommas
  apply dropWhileEnd_clean
  intro c hc
  have := getLast_dropWhileEnd (fun c => c = ',') t c hc
  simpa using this

theorem stripCommas_of_no_comma (t : List Char) (h : ',' ∉ t) : stripCommas t = t := by
  unfold stripCommas
  apply dropWhileEnd_clean
  intro c hc
  have hmem : c ∈ t := by
    cases ht : t.getLast? with
    | none => rw [ht] at hc; cases hc
    | some d =>
      rw [ht] at hc
      injection hc with hc
      subst hc
      exact List.mem_of_mem_getLast? ht
  simp only [decide_eq_false_iff_not]
  intro hcontra
  subst hcontra
  exact h hmem

theorem stripCommas_append_comma (t : List Char) : stripCommas (t ++ [',']) = stripCommas t := by
  unfold stripCommas dropWhileEnd
  rw [List.reverse_append]
  rfl

theorem mem_stripCommas (t : List Char) : ∀ c ∈ stripCommas t, c ∈ t :=
  mem_dropWhileEnd (fun c => c = ',') t

theorem tokenizeL_append (x y : List Char) :
    tokenizeL (x ++ ' ' :: y) = tokenizeL x ++ tokenizeL y := by
  unfold tokenizeL
  rw [splitSpaces_append, List.map_append, List.filter_append]

theorem tokenizeL_mem_props (l : List Char) :
    ∀ t ∈ tokenizeL l, t ≠ [] ∧ ' ' ∉ t ∧ stripCommas t = t := by
  intro t ht
  unfold tokenizeL at ht
  have h1 := List.of_mem_filter ht
  have h2 := List.mem_of_mem_filter ht
  obtain ⟨chunk, hchunk, hct⟩ := List.mem_map.mp h2
  refine ⟨by simpa using h1, ?_, ?_⟩
  · intro hsp
    have hcm : ' ' ∈ chunk := mem_stripCommas chunk ' ' (hct ▸ hsp)
    exact splitSpaces_no_space l chunk hchunk hcm
  · rw [← hct, stripCommas_idem]

theorem tokenizeL_single (t : List Char) (hne : t ≠ []) (hsp : ' ' ∉ t)
    (hsc : stripCommas t = t) : tokenizeL t = [t] := by
  unfold tokenizeL
  rw [splitSpaces_single t hsp]
  simp [hsc, hne]

theorem tokenizeL_single_comma (t : List Char) (hne : t ≠ []) (hsp : ' ' ∉ t)
    (hsc : stripCommas t = t) : tokenizeL (t ++ [',']) = [t] := by
  unfold tokenizeL
  rw [splitSpaces_single (t ++ [','])
    (by intro hcontra; rcases List.mem_append.mp hcontra with h1 | h1
        · exact hsp h1
        · simp at h1)]
  rw [List.map_cons, List.map_nil, stripCommas_append_comma, hsc]
  simp [hne]

/-! Character-class facts used in the round trip. -/

theorem isDigitA_ne_space (c : Char) (h : isDigitA c = true) : c ≠ ' ' :=
  fun hc => absurd (hc ▸ h) (by decide)

theorem isDigitA_ne_comma (c : Char) (h : isDigitA c = true) : c ≠ ',' :=
  fun hc => absurd (hc ▸ h) (by decide)

theorem isLetterA_ne_space (c : Char) (h : isLetterA c = true) : c ≠ ' ' :=
  fun hc => absurd (hc ▸ h) (by decide)

theorem isLetterA_ne_comma (c : Char) (h : isLetterA c = true) : c ≠ ',' :=
  fun hc => absurd (hc ▸ h) (by decide)

theorem isLetterA_not_digit (c : Char) (h : isLetterA c = true) : isDigitA c = false := by
  unfold isLetterA isUpperA isLowerA at h
  unfold isDigitA
  rw [Bool.or_eq_true, decide_eq_true_iff, decide_eq_true_iff] at h
  rw [decide_eq_false_iff_not]
  omega

theorem takeWhile_all_append (p : Char → Bool) :
    ∀ (xs ys : List Char), (∀ x ∈ xs, p x = true) →
      (xs ++ ys).takeWhile p = xs ++ ys.takeWhile p ∧
      (xs ++ ys).dropWhile p = ys.dropWhile p := by
  intro xs
  induction xs with
  | nil => intro ys _; simp
  | cons a rest ih =>
    intro ys h
    have ha : p a = true := h a (by simp)
    rw [List.cons_append, List.takeWhile_cons_of_pos ha, List.dropWhile_cons_of_pos ha]
    have := ih ys (fun x hx => h x (by simp [hx]))
    rw [this.1, this.2]
    simp

inductive CitationStyle : Type where
  | full : CitationStyle
  | short : CitationStyle
  | pinpoint : CitationStyle
deriving Repr, DecidableEq

/-- Modelled from the spec (§4.3, §6): `full` renders
`"<doc_id> § <section>[, stk. <pinpoint>]"`; `short` renders
`"§ <section>"`; `pinpoint` renders like `full` with the subsection always
included when present.  No style renders the chapter. -/
def formatCitation (c : StructuredCitation) : CitationStyle → String
  | .full =>
    c.document_id ++ " § " ++ c.«section» ++
      (match c.pinpoint with
       | some p => ", stk. " ++ p
       | none => "")
  | .short => "§ " ++ c.«section»
  | .pinpoint =>
    c.document_id ++ " § " ++ c.«section» ++
      (match c.pinpoint with
       | some p => ", stk. " ++ p
       | none => "")

/-- What the tokenizer guarantees of a document-identifier token. -/
def DocTok (d : List Char) : Prop :=
  d ≠ [] ∧ ' ' ∉ d ∧ stripCommas d = d ∧
    ¬(d = "§".data ∨ d = "stk.".data ∨ d = "art.".data)

/-- The shapes a parsed section string can take: digits, digits with an
attached letter, or digits, a space and a letter. -/
def SecOk (sec : String) : Prop :=
  ∃ ds, ds ≠ [] ∧ (∀ x ∈ ds, isDigitA x = true) ∧
    (sec.data = ds ∨
      ∃ a, isLetterA a = true ∧ (sec.data = ds ++ [a] ∨ sec.data = ds ++ [' ', a]))

/-- The shape of a parsed subsection pinpoint. -/
def PinOk : Option String → Prop
  | none => True
  | some p => p.data ≠ [] ∧ ∀ x ∈ p.data, isDigitA x = true

theorem isEmpty_false_ne_nil {α : Type} {l : List α} (h : l.isEmpty = false) : l ≠ [] := by
  intro hc
  subst hc
  simp at h

theorem parseSecFrom_shape (ts : List (List Char)) (sec : String)
    (rest2 : List (List Char)) (h : parseSecFrom ts = Except.ok (sec, rest2)) :
    SecOk sec := by
  unfold parseSecFrom at h
  split at h
  · cases h
  · rename_i t rest
    split at h
    · rename_i hdig
      have hds : t ≠ [] ∧ ∀ x ∈ t, isDigitA x = true := by
        unfold isDigitsTok at hdig
        rw [Bool.and_eq_true, Bool.not_eq_true'] at hdig
        exact ⟨isEmpty_false_ne_nil hdig.1, fun x hx => (List.all_eq_true.mp hdig.2) x hx⟩
      split at h
      · rename_i u rest2'
        split at h
        · rename_i habs
          injection h with h
          have hsec := congrArg Prod.fst h
          simp at hsec
          rw [Bool.and_eq_true, beq_iff_eq, List.all_eq_true] at habs
          obtain ⟨a, hu⟩ := List.length_eq_one.mp habs.1
          refine ⟨t, hds.1, hds.2, Or.inr ⟨a, habs.2 a (by simp [hu]), Or.inr ?_⟩⟩
          rw [← hsec, hu]
        · injection h with h
          have hsec := congrArg Prod.fst h
          simp at hsec
          exact ⟨t, hds.1, hds.2, Or.inl (by rw [← hsec])⟩
      · injection h with h
        have hsec := congrArg Prod.fst h
        simp at hsec
        exact ⟨t, hds.1, hds.2, Or.inl (by rw [← hsec])⟩
    · split at h
      · rename_i hst
        injection h with h
        have hsec := congrArg Prod.fst h
        simp at hsec
        unfold isSecTok at hst
        rw [Bool.and_eq_true, Bool.not_eq_true'] at hst
        obtain ⟨hne0, hrest⟩ := hst
        have hne := isEmpty_false_ne_nil hne0
        refine ⟨t.takeWhile isDigitA, hne, fun x hx => List.mem_takeWhile_imp hx, ?_⟩
        rw [Bool.or_eq_true] at hrest
        rcases hrest with h1 | h1
        · rw [List.isEmpty_iff] at h1
          left
          rw [← hsec]
          conv_lhs => rw [← List.takeWhile_append_dropWhile (p := isDigitA) (l := t)]
          rw [h1]
          simp
        · rw [Bool.and_eq_true, beq_iff_eq, List.all_eq_true] at h1
          obtain ⟨a, hu⟩ := List.length_eq_one.mp h1.1
          right
          refine ⟨a, h1.2 a (by simp [hu]), Or.inl ?_⟩
          rw [← hsec]
          conv_lhs => rw [← List.takeWhile_append_dropWhile (p := isDigitA) (l := t)]
          rw [hu]
      · cases h

theorem parsePinpointTokens_shape (ts : List (List Char))
    (pp art : Option String) (h : parsePinpointTokens ts = Except.ok (pp, art)) :
    PinOk pp := by
  unfold parsePinpointTokens at h
  split at h
  · injection h with h
    have hpp := congrArg Prod.fst h
    simp at hpp
    rw [← hpp]
    trivial
  · rename_i t rest
    split at h
    · split at h
      · rename_i p
        split at h
        · rename_i hdig
          injection h with h
          have hpp := congrArg Prod.fst h
          simp at hpp
          rw [← hpp]
          unfold isDigitsTok at hdig
          rw [Bool.and_eq_true, Bool.not_eq_true', List.all_eq_true] at hdig
          exact ⟨isEmpty_false_ne_nil hdig.1, fun x hx => hdig.2 x hx⟩
        · cases h
      · cases h
    · split at h
      · split at h
        · split at h
          · injection h with h
            have hpp := congrArg Prod.fst h
            simp at hpp
            rw [← hpp]
            trivial
          · cases h
        · cases h
      · cases h

theorem parseCitation_inversion (s : String) (c : StructuredCitation)
    (h : parseCitation s = Except.ok c) (hch : c.chapter = none) :
    DocTok c.document_id.data ∧ SecOk c.«section» ∧ PinOk c.pinpoint := by
  unfold parseCitation at h
  split at h
  · cases h
  · rename_i d rest htok
    split at h
    · cases h
    · rename_i hmark
      have hdtok : d ∈ tokenizeL s.data := by rw [htok]; simp
      have hdp := tokenizeL_mem_props s.data d hdtok
      split at h
      · rename_i pr hsplit
        split at h
        · cases h
        · rename_i sr hsec
          split at h
          · cases h
          · rename_i pa hpin
            injection h with h
            subst h
            exact ⟨⟨hdp.1, hdp.2.1, hdp.2.2, hmark⟩,
              parseSecFrom_shape pr.2 sr.1 sr.2 hsec,
              parsePinpointTokens_shape sr.2 pa.1 pa.2 hpin⟩
      · split at h
        · cases h
        · rename_i t rest1
          split at h
          · rename_i cs hcs
            split at h
            · cases h
            · rename_i pa hpin
              injection h with h
              subst h
              simp at hch
          · split at h
            · cases h
            · rename_i sr hsec
              split at h
              · cases h
              · rename_i pa hpin
                injection h with h
                subst h
                exact ⟨⟨hdp.1, hdp.2.1, hdp.2.2, hmark⟩,
                  parseSecFrom_shape _ sr.1 sr.2 hsec,
                  parsePinpointTokens_shape sr.2 pa.1 pa.2 hpin⟩

/-- The pinpoint suffix of the `full` style, as a character list. -/
def pinSuffix : Option String → List Char
  | some p => (", stk. ").data ++ p.data
  | none => []

theorem formatCitation_full_data (c : StructuredCitation) :
    (formatCitation c .full).data =
      c.document_id.data ++ [' ', '§', ' '] ++ (c.«section».data ++ pinSuffix c.pinpoint) := by
  show (c.document_id ++ " § " ++ c.«section» ++
      (match c.pinpoint with
       | some p => ", stk. " ++ p
       | none => "")).data = _
  cases c.pinpoint with
  | none =>
    unfold pinSuffix
    simp [String.data_append]
  | some p =>
    unfold pinSuffix
    simp [String.data_append]

theorem isDigitsTok_of (ds : List Char) (hne : ds ≠ [])
    (hdig : ∀ x ∈ ds, isDigitA x = true) : isDigitsTok ds = true := by
  unfold isDigitsTok
  rw [Bool.and_eq_true]
  constructor
  · cases ds with
    | nil => exact absurd rfl hne
    | cons a l => rfl
  · exact List.all_eq_true.mpr hdig

theorem isSecTok_letter (ds : List Char) (a : Char) (hne : ds ≠ [])
    (hdig : ∀ x ∈ ds, isDigitA x = true) (ha : isLetterA a = true) :
    isSecTok (ds ++ [a]) = true := by
  have h1 := takeWhile_all_append isDigitA ds [a] hdig
  have hta : [a].takeWhile isDigitA = [] := by
    rw [List.takeWhile_cons_of_neg (by simp [isLetterA_not_digit a ha])]
  have hda : [a].dropWhile isDigitA = [a] := by
    rw [List.dropWhile_cons_of_neg (by simp [isLetterA_not_digit a ha])]
  unfold isSecTok
  rw [h1.1, h1.2, hta, hda, List.append_nil]
  rw [Bool.and_eq_true]
  constructor
  · cases ds with
    | nil => exact absurd rfl hne
    | cons x l => rfl
  · simp [ha]

theorem isDigitsTok_letter (ds : List Char) (a : Char) (ha : isLetterA a = true) :
    isDigitsTok (ds ++ [a]) = false := by
  unfold isDigitsTok
  rw [Bool.and_eq_false_iff]
  right
  rw [List.all_eq_false]
  exact ⟨a, by simp, by simp [isLetterA_not_digit a ha]⟩

theorem tokenizeL_full (d : List Char) (hne : d ≠ []) (hsp : ' ' ∉ d)
    (hsc : stripCommas d = d) (rest0 : List Char) :
    tokenizeL (d ++ [' ', '§', ' '] ++ rest0) = d :: "§".data :: tokenizeL rest0 := by
  have h1 : d ++ [' ', '§', ' '] ++ rest0 = d ++ ' ' :: (['§'] ++ ' ' :: rest0) := by simp
  rw [h1, tokenizeL_append, tokenizeL_single d hne hsp hsc,
      tokenizeL_append ['§'] rest0,
      tokenizeL_single ['§'] (by simp) (by decide) (by decide)]
  rfl

theorem pinSuffix_some_eq (X : List Char) (p : String) :
    X ++ pinSuffix (some p) = (X ++ [',']) ++ ' ' :: ("stk.".data ++ ' ' :: p.data) := by
  show X ++ (',' :: ' ' :: ("stk.".data ++ ' ' :: p.data)) = _
  simp

theorem parseCitation_format (d : List Char) (hD : DocTok d) (sec : String)
    (hS : SecOk sec) (pin : Option String) (hP : PinOk pin) :
    parseCitation ⟨d ++ [' ', '§', ' '] ++ (sec.data ++ pinSuffix pin)⟩ =
      Except.ok ⟨⟨d⟩, none, sec, pin, none⟩ := by
  obtain ⟨hdne, hdsp, hdsc, hmark⟩ := hD
  obtain ⟨ds, hdsne, hdsdig, hshape⟩ := hS
  have hds_sp : ' ' ∉ ds := fun hmem => isDigitA_ne_space ' ' (hdsdig ' ' hmem) rfl
  have hds_sc : stripCommas ds = ds :=
    stripCommas_of_no_comma ds (fun hmem => isDigitA_ne_comma ',' (hdsdig ',' hmem) rfl)
  have hds_tok : isDigitsTok ds = true := isDigitsTok_of ds hdsne hdsdig
  unfold parseCitation
  rw [show (String.mk (d ++ [' ', '§', ' '] ++ (sec.data ++ pinSuffix pin))).data
      = d ++ [' ', '§', ' '] ++ (sec.data ++ pinSuffix pin) from rfl]
  rw [tokenizeL_full d hdne hdsp hdsc]
  dsimp only
  rw [if_neg hmark]
  rw [show splitAtTok ("§".data) ("§".data :: tokenizeL (sec.data ++ pinSuffix pin))
      = some ([], tokenizeL (sec.data ++ pinSuffix pin)) from by rw [splitAtTok, if_pos rfl]]
  dsimp only
  cases pin with
  | none =>
    rw [show pinSuffix none = ([] : List Char) from rfl, List.append_nil]
    rcases hshape with hflat | ⟨a, ha, hatt | hspc⟩
    · rw [hflat, tokenizeL_single ds hdsne hds_sp hds_sc]
      rw [show parseSecFrom [ds] = Except.ok ((⟨ds⟩ : String), ([] : List (List Char))) from by
        rw [parseSecFrom, if_pos hds_tok]]
      dsimp only
      rw [show parsePinpointTokens []
          = Except.ok ((none : Option String), (none : Option String)) from rfl]
      dsimp only
      rw [show (⟨ds⟩ : String) = sec from by rw [← hflat]]
    · have hne2 : ds ++ [a] ≠ [] := by simp
      have hsp2 : ' ' ∉ ds ++ [a] := by
        intro hc
        rcases List.mem_append.mp hc with h1 | h1
        · exact isDigitA_ne_space ' ' (hdsdig ' ' h1) rfl
        · rw [List.mem_singleton] at h1
          exact isLetterA_ne_space a ha h1.symm
      have hsc2 : stripCommas (ds ++ [a]) = ds ++ [a] := by
        apply stripCommas_of_no_comma
        intro hc
        rcases List.mem_append.mp hc with h1 | h1
        · exact isDigitA_ne_comma ',' (hdsdig ',' h1) rfl
        · rw [List.mem_singleton] at h1
          exact isLetterA_ne_comma a ha h1.symm
      rw [hatt, tokenizeL_single (ds ++ [a]) hne2 hsp2 hsc2]
      rw [show parseSecFrom [ds ++ [a]]
          = Except.ok ((⟨ds ++ [a]⟩ : String), ([] : List (List Char))) from by
        rw [parseSecFrom, if_neg (by simp [isDigitsTok_letter ds a ha]),
            if_pos (isSecTok_letter ds a hdsne hdsdig ha)]]
      dsimp only
      rw [show parsePinpointTokens []
          = Except.ok ((none : Option String), (none : Option String)) from rfl]
      dsimp only
      rw [show (⟨ds ++ [a]⟩ : String) = sec from by rw [← hatt]]
    · have hsp1 : ' ' ∉ [a] :=
        fun hc => isLetterA_ne_space a ha (List.mem_singleton.mp hc).symm
      have hsc1 : stripCommas [a] = [a] :=
        stripCommas_of_no_comma [a]
          (fun hc => isLetterA_ne_comma a ha (List.mem_singleton.mp hc).symm)
      rw [hspc, show ds ++ [' ', a] = ds ++ ' ' :: [a] from rfl, tokenizeL_append,
          tokenizeL_single ds hdsne hds_sp hds_sc,
          tokenizeL_single [a] (by simp) hsp1 hsc1]
      simp only [List.cons_append, List.nil_append]
      rw [show parseSecFrom (ds :: [[a]])
          = Except.ok ((⟨ds ++ ' ' :: [a]⟩ : String), ([] : List (List Char))) from by
        rw [parseSecFrom, if_pos hds_tok]
        try dsimp only
        rw [if_pos (by simp [ha])]]
      dsimp only
      rw [show parsePinpointTokens []
          = Except.ok ((none : Option String), (none : Option String)) from rfl]
      dsimp only
      rw [show (⟨ds ++ ' ' :: [a]⟩ : String) = sec from by
        rw [show ds ++ ' ' :: [a] = ds ++ [' ', a] from rfl, ← hspc]]
  | some p =>
    have hP' : p.data ≠ [] ∧ ∀ x ∈ p.data, isDigitA x = true := hP
    obtain ⟨hpne, hpdig⟩ := hP'
    have hp_sp : ' ' ∉ p.data := fun hmem => isDigitA_ne_space ' ' (hpdig ' ' hmem) rfl
    have hp_sc : stripCommas p.data = p.data :=
      stripCommas_of_no_comma p.data (fun hmem => isDigitA_ne_comma ',' (hpdig ',' hmem) rfl)
    have hp_tok : isDigitsTok p.data = true := isDigitsTok_of p.data hpne hpdig
    rcases hshape with hflat | ⟨a, ha, hatt | hspc⟩
    · rw [hflat, pinSuffix_some_eq ds p, tokenizeL_append,
          tokenizeL_single_comma ds hdsne hds_sp hds_sc,
          tokenizeL_append ("stk.".data) p.data,
          tokenizeL_single "stk.".data (by decide) (by decide) (by decide),
          tokenizeL_single p.data hpne hp_sp hp_sc]
      simp only [List.cons_append, List.nil_append]
      rw [show parseSecFrom (ds :: "stk.".data :: [p.data])
          = Except.ok ((⟨ds⟩ : String), ["stk.".data, p.data]) from by
        rw [parseSecFrom, if_pos hds_tok]
        try dsimp only
        rw [if_neg (by decide)]]
      dsimp only
      rw [show parsePinpointTokens ["stk.".data, p.data]
          = Except.ok (some (⟨p.data⟩ : String), (none : Option String)) from by
        rw [parsePinpointTokens, if_pos rfl]
        try dsimp only
        rw [if_pos hp_tok]]
      dsimp only
      rw [show (⟨p.data⟩ : String) = p from rfl, show (⟨ds⟩ : String) = sec from by rw [← hflat]]
    · have hne2 : ds ++ [a] ≠ [] := by simp
      have hsp2 : ' ' ∉ ds ++ [a] := by
        intro hc
        rcases List.mem_append.mp hc with h1 | h1
        · exact isDigitA_ne_space ' ' (hdsdig ' ' h1) rfl
        · rw [List.mem_singleton] at h1
          exact isLetterA_ne_space a ha h1.symm
      have hsc2 : stripCommas (ds ++ [a]) = ds ++ [a] := by
        apply stripCommas_of_no_comma
        intro hc
        rcases List.mem_append.mp hc with h1 | h1
        · exact isDigitA_ne_comma ',' (hdsdig ',' h1) rfl
        · rw [List.mem_singleton] at h1
          exact isLetterA_ne_comma a ha h1.symm
      rw [hatt, pinSuffix_some_eq (ds ++ [a]) p, tokenizeL_append,
          tokenizeL_single_comma (ds ++ [a]) hne2 hsp2 hsc2,
          tokenizeL_append ("stk.".data) p.data,
          tokenizeL_single "stk.".data (by decide) (by decide) (by decide),
          tokenizeL_single p.data hpne hp_sp hp_sc]
      simp only [List.cons_append, List.nil_append]
      rw [show parseSecFrom ((ds ++ [a]) :: "stk.".data :: [p.data])
          = Except.ok ((⟨ds ++ [a]⟩ : String), ["stk.".data, p.data]) from by
        rw [parseSecFrom, if_neg (by simp [isDigitsTok_letter ds a ha]),
            if_pos (isSecTok_letter ds a hdsne hdsdig ha)]]
      dsimp only
      rw [show parsePinpointTokens ["stk.".data, p.data]
          = Except.ok (some (⟨p.data⟩ : String), (none : Option String)) from by
        rw [parsePinpointTokens, if_pos rfl]
        try dsimp only
        rw [if_pos hp_tok]]
      dsimp only
      rw [show (⟨p.data⟩ : String) = p from rfl,
          show (⟨ds ++ [a]⟩ : String) = sec from by rw [← hatt]]
    · have hsp1 : ' ' ∉ [a] :=
        fun hc => isLetterA_ne_space a ha (List.mem_singleton.mp hc).symm
      have hsc1 : stripCommas [a] = [a] :=
        stripCommas_of_no_comma [a]
          (fun hc => isLetterA_ne_comma a ha (List.mem_singleton.mp hc).symm)
      rw [hspc, show (ds ++ [' ', a]) ++ pinSuffix (some p)
            = ds ++ ' ' :: ([a] ++ pinSuffix (some p)) from by simp,
          tokenizeL_append, tokenizeL_single ds hdsne hds_sp hds_sc,
          pinSuffix_some_eq [a] p, tokenizeL_append,
          tokenizeL_single_comma [a] (by simp) hsp1 hsc1,
          tokenizeL_append ("stk.".data) p.data,
          tokenizeL_single "stk.".data (by decide) (by decide) (by decide),
          tokenizeL_single p.data hpne hp_sp hp_sc]
      simp only [List.cons_append, List.nil_append]
      rw [show parseSecFrom (ds :: [a] :: "stk.".data :: [p.data])
          = Except.ok ((⟨ds ++ ' ' :: [a]⟩ : String), ["stk.".data, p.data]) from by
        rw [parseSecFrom, if_pos hds_tok]
        try dsimp only
        rw [if_pos (by simp [ha])]]
      dsimp only
      rw [show parsePinpointTokens ["stk.".data, p.data]
          = Except.ok (some (⟨p.data⟩ : String), (none : Option String)) from by
        rw [parsePinpointTokens, if_pos rfl]
        try dsimp only
        rw [if_pos hp_tok]]
      dsimp only
      rw [show (⟨p.data⟩ : String) = p from rfl,
          show (⟨ds ++ ' ' :: [a]⟩ : String) = sec from by
            rw [show ds ++ ' ' :: [a] = ds ++ [' ', a] from rfl, ← hspc]]

/-- C1 (amended): the round trip parse-format-parse reproduces the citation
for every accepted citation string whose parse carries no chapter and no EU
article.  The claim as stated is refuted by
citation_roundtrip_counterexample: the full style never renders the
chapter, so a compact chapter:section citation does not survive the round
trip. -/
theorem citation_roundtrip (s : String) (c : StructuredCitation)
    (h : parseCitation s = Except.ok c) (hch : c.chapter = none)
    (hart : c.eu_article = none) :
    parseCitation (formatCitation c CitationStyle.full) = Except.ok c := by
  obtain ⟨hD, hS, hP⟩ := parseCitation_inversion s c h hch
  obtain ⟨cd, cch, cs, cp, ca⟩ := c
  try dsimp only at hch
  try dsimp only at hart
  try dsimp only at hD
  try dsimp only at hP
  subst hch
  subst hart
  have hfmt : formatCitation ⟨cd, none, cs, cp, none⟩ CitationStyle.full
      = ⟨cd.data ++ [' ', '§', ' '] ++ (cs.data ++ pinSuffix cp)⟩ := by
    rw [show cd.data ++ [' ', '§', ' '] ++ (cs.data ++ pinSuffix cp)
        = (formatCitation ⟨cd, none, cs, cp, none⟩ CitationStyle.full).data from
      (formatCitation_full_data ⟨cd, none, cs, cp, none⟩).symm]
  rw [hfmt, parseCitation_format cd.data hD cs hS cp hP]

/-- C1: the unconditional round-trip contract of the spec fails for a
chaptered citation: "2018:502 3:5" parses to a citation with chapter "3",
but the full style does not render the chapter, so re-parsing its output
loses the chapter. -/
theorem citation_roundtrip_counterexample :
    parseCitation "2018:502 3:5"
      = Except.ok ⟨"2018:502", some "3", "5", none, none⟩ ∧
    parseCitation
        (formatCitation ⟨"2018:502", some "3", "5", none, none⟩ CitationStyle.full)
      ≠ Except.ok ⟨"2018:502", some "3", "5", none, none⟩ := by
  refine ⟨rfl, ?_⟩
  intro hc
  have h2 : Except.ok (⟨"2018:502", none, "5", none, none⟩ : StructuredCitation)
      = Except.ok (⟨"2018:502", some "3", "5", none, none⟩ : StructuredCitation) :=
    Eq.trans
      (Eq.symm (show parseCitation
          (formatCitation ⟨"2018:502", some "3", "5", none, none⟩ CitationStyle.full)
        = Except.ok (⟨"2018:502", none, "5", none, none⟩ : StructuredCitation) from rfl))
      hc
  simp at h2

/-- C1 witness: the amended round trip at the accepted citation string
"2018:502 § 5 a, stk. 2". -/
theorem citation_roundtrip_witness :
    parseCitation
        (formatCitation ⟨"2018:502", none, "5 a", some "2", none⟩ CitationStyle.full)
      = Except.ok ⟨"2018:502", none, "5 a", some "2", none⟩ :=
  citation_roundtrip "2018:502 § 5 a, stk. 2"
    ⟨"2018:502", none, "5 a", some "2", none⟩ rfl rfl rfl

end DanishLaw
